import Mathlib

/-!
Verification of the classification-move-undo engine of `src/file_sorter.py`
(File Organizer Pro).

The engine is embedded shallowly:

* a `Path` is the list of components relative to the selected directory
  (so a top-level file `a.pdf` is `["a.pdf"]` and a sorted file is
  `["Documents", "a.pdf"]`);
* the filesystem is a finite association list of file paths to contents
  plus a list of directories;
* `pySuffix` / `pyStem` give the semantics of `pathlib.PurePath.suffix` /
  `.stem` on a file name;
* `get_category`, `action_sort` and `undo_sort` are translated line by line
  from `FileCategory.get_category`, `FileOrganizerPro.action_sort` and
  `FileOrganizerPro.undo_sort`;
* `FS.shutilMove` models the success/failure behaviour of `shutil.move`
  for a regular-file source (including the redirection of the destination
  into an existing directory);
* exceptions raised by the host filesystem (permission errors, vanished
  sources, ...) are modelled by a failure oracle `mf : Path → Path → Bool`
  passed to the engine; the code catches them per file.
-/

namespace FileSorter

/-- A filesystem path, as the list of name components below the selected
directory. -/
abbrev Path := List String

/-- Semantics of `pathlib.PurePath.suffix` on a file name: the part of the
name from the last dot on, empty when the last dot is the first character,
the last character, or absent. -/
def pySuffix (s : String) : String :=
  let r := s.data.reverse
  let a := r.takeWhile (fun c => c != '.')
  if a.length = r.length then ""
  else if a.length = 0 then ""
  else if a.length + 1 = r.length then ""
  else String.mk ('.' :: a.reverse)

/-- Semantics of `pathlib.PurePath.stem`: the name with `pySuffix` removed. -/
def pyStem (s : String) : String :=
  if pySuffix s = "" then s
  else String.mk ((s.data.reverse.drop
    ((s.data.reverse.takeWhile (fun c => c != '.')).length + 1)).reverse)

/-- The ordered extension table `FileCategory.CATEGORIES` (a Python dict,
iterated in insertion order). -/
def CATEGORIES : List (String × List String) :=
  [("Documents", [".pdf", ".docx", ".doc", ".txt", ".rtf", ".odt", ".xls",
      ".xlsx", ".ppt", ".pptx", ".csv", ".md", ".markdown", ".tex", ".log",
      ".pages", ".numbers", ".key", ".odp", ".ods", ".epub", ".djvu",
      ".mobi", ".azw", ".azw3", ".fb2", ".oxps", ".xps"]),
   ("Images", [".jpg", ".jpeg", ".png", ".gif", ".bmp", ".svg", ".tiff",
      ".webp", ".ico", ".psd", ".ai", ".eps", ".indd", ".raw", ".cr2",
      ".nef", ".orf", ".sr2", ".heif", ".heic", ".xcf", ".cdr"]),
   ("Videos", [".mp4", ".avi", ".mkv", ".mov", ".wmv", ".flv", ".webm",
      ".m4v", ".mpg", ".mpeg", ".3gp", ".3g2", ".ogv", ".vob", ".swf",
      ".m2ts", ".mts", ".ts", ".divx", ".f4v", ".rm", ".rmvb", ".ogm"]),
   ("Audio", [".mp3", ".wav", ".flac", ".aac", ".ogg", ".m4a", ".wma",
      ".opus", ".aiff", ".alac", ".ape", ".mid", ".midi", ".amr", ".ac3",
      ".dts", ".ra", ".voc", ".pcm", ".dsf", ".dff", ".mka", ".au"]),
   ("Archives", [".zip", ".rar", ".tar", ".gz", ".7z", ".bz2", ".xz",
      ".iso", ".tgz", ".tbz2", ".txz", ".cab", ".deb", ".rpm", ".pkg",
      ".dmg", ".z", ".lzma", ".lz", ".lz4", ".lzo", ".zst", ".arj"]),
   ("Code", [".py", ".js", ".html", ".css", ".java", ".cpp", ".c", ".h",
      ".php", ".rb", ".go", ".rs", ".ts", ".swift", ".kt", ".kts",
      ".scala", ".sc", ".dart", ".lua", ".pl", ".pm", ".sh", ".bash",
      ".ps1", ".bat", ".cmd", ".sql", ".r", ".jsx", ".tsx", ".vue",
      ".elm", ".clj", ".ex", ".exs", ".erl", ".hrl", ".hs", ".lhs",
      ".fs", ".fsx", ".ml", ".mli", ".groovy", ".cs", ".vb", ".xaml",
      ".xml", ".json", ".yaml", ".yml", ".toml", ".ini", ".config",
      ".cmake", ".make", ".gradle", ".m", ".mm", ".f", ".f90", ".f95",
      ".f03", ".f08", ".asm", ".s", ".gitignore", ".dockerignore",
      ".editorconfig"]),
   ("Executables", [".exe", ".msi", ".app", ".dmg", ".deb", ".rpm",
      ".apk", ".jar", ".war", ".dll", ".so", ".dylib", ".bin", ".run",
      ".bat", ".cmd", ".com", ".gadget", ".vb", ".vbs", ".ps1", ".msc"]),
   ("Fonts", [".ttf", ".otf", ".woff", ".woff2", ".eot", ".fnt", ".fon",
      ".bdf", ".pfb", ".pfm", ".afm", ".pfa"]),
   ("Spreadsheets", [".xlsx", ".xls", ".xlsm", ".xlsb", ".numbers",
      ".ods", ".csv", ".tsv", ".dif", ".sylk", ".dbf"]),
   ("Presentations", [".pptx", ".ppt", ".pps", ".ppsx", ".odp", ".key",
      ".gslides"]),
   ("Databases", [".db", ".sqlite", ".sqlite3", ".mdb", ".accdb", ".sql",
      ".bak", ".dbf", ".frm", ".ibd", ".myd", ".myi"]),
   ("3D_Models", [".obj", ".fbx", ".3ds", ".stl", ".dae", ".blend",
      ".max", ".ma", ".mb", ".c4d", ".lwo", ".lws"]),
   ("CAD", [".dwg", ".dxf", ".step", ".stp", ".iges", ".igs", ".x_t",
      ".x_b", ".sldprt", ".sldasm", ".ipt", ".iam"]),
   ("Vector", [".svg", ".ai", ".eps", ".pdf", ".cdr", ".afdesign",
      ".sketch"]),
   ("Ebooks", [".epub", ".mobi", ".azw", ".azw3", ".fb2", ".ibooks",
      ".cbr", ".cbz", ".pdf"]),
   ("Others", [])]

/-- Model of Python `str.lower()`: lowercase every character (adequate for
the ASCII extension strings this program compares). -/
def strLower (s : String) : String := String.mk (s.data.map Char.toLower)

/-- Translation of `FileCategory.get_category`: lowercase the final suffix
of the name and return the first category of the table whose extension
list contains it, defaulting to `"Others"`. -/
def get_category (name : String) : String :=
  let extension := strLower (pySuffix name)
  match CATEGORIES.find? (fun e => e.2.contains extension) with
  | some e => e.1
  | none => "Others"

/-- The filesystem under the selected directory: files with contents, and
directories. -/
structure FS where
  files : List (Path × String)
  dirs : List Path
deriving DecidableEq

/-- Content of the file at `p`, if one exists. -/
def FS.getFile (fs : FS) (p : Path) : Option String :=
  (fs.files.find? (fun e => e.1 == p)).map (fun e => e.2)

/-- Whether a regular file exists at `p`. -/
def FS.fileExists (fs : FS) (p : Path) : Bool :=
  fs.files.any (fun e => e.1 == p)

/-- Whether a directory exists at `p`. -/
def FS.dirExists (fs : FS) (p : Path) : Bool :=
  fs.dirs.contains p

/-- Semantics of `Path.exists()`: a file or a directory is at `p`. -/
def FS.pathExists (fs : FS) (p : Path) : Bool :=
  fs.fileExists p || fs.dirExists p

/-- All paths present on the filesystem. -/
def FS.allPaths (fs : FS) : List Path :=
  fs.files.map (fun e => e.1) ++ fs.dirs

/-- Semantics of `any(d.iterdir())`: some entry lies strictly below `d`. -/
def FS.hasChild (fs : FS) (d : Path) : Bool :=
  fs.allPaths.any (fun p => d.isPrefixOf p && p != d)

/-- Name of the entry a path points at (`Path.name`). -/
def fileName (p : Path) : String := p.getLastD ""

/-- Parent directory of a path (`Path.parent`). -/
def parentDir (p : Path) : Path := p.dropLast

/-- Success and failure behaviour of `shutil.move` for a regular-file
source.  When the destination is an existing directory the source is moved
inside it under its own name, raising (`none`) if that slot is taken;
otherwise the file is renamed to the destination, raising if the
destination already exists (Windows `os.rename` semantics, the platform
this application targets), if the destination's parent is not an existing
directory (`os.rename` and the `copy2` fallback both raise
`NotADirectoryError` / `FileNotFoundError` when the parent is a regular
file or missing), or if the source is not an existing regular file.  A
path of depth one has the selected directory itself as parent, which
always exists. -/
def FS.shutilMove (fs : FS) (src dst : Path) : Option FS :=
  let realDst := if fs.dirExists dst then dst ++ [fileName src] else dst
  if fs.pathExists realDst then none
  else if !(parentDir realDst).isEmpty && !(fs.dirExists (parentDir realDst)) then none
  else match fs.getFile src with
    | none => none
    | some c =>
      some { fs with files := fs.files.filter (fun e => e.1 != src) ++ [(realDst, c)] }

/-- Well-formedness of a filesystem snapshot: distinct file paths,
distinct directory paths, and no path that is both. -/
def FS.Wf (fs : FS) : Prop :=
  (fs.files.map (fun e => e.1)).Nodup ∧ fs.dirs.Nodup ∧
    ∀ p ∈ fs.files.map (fun e => e.1), p ∉ fs.dirs

/-- The mutable state of `FileOrganizerPro` that the engine touches. -/
structure AppState where
  fs : FS
  last_sort_results : List (String × List Path)
  undo_data : List (Path × Path)
  status : String
deriving DecidableEq

/-- The reset value of `last_sort_results`: every category mapped to an
empty list. -/
def initResults : List (String × List Path) :=
  CATEGORIES.map (fun e => (e.1, []))

/-- Append a destination under its category in `last_sort_results`. -/
def addResult (rs : List (String × List Path)) (c : String) (p : Path) :
    List (String × List Path) :=
  rs.map (fun e => if e.1 == c then (e.1, e.2 ++ [p]) else e)

/-- Python dict assignment `d[k] = v` on an insertion-ordered association
list. -/
def dictInsert (d : List (Path × Path)) (k v : Path) : List (Path × Path) :=
  if d.any (fun e => e.1 == k) then d.map (fun e => if e.1 == k then (k, v) else e)
  else d ++ [(k, v)]

/-- Add a file under its category in the first-pass grouping dict. -/
def groupInsert (gs : List (String × List Path)) (c : String) (p : Path) :
    List (String × List Path) :=
  if gs.any (fun g => g.1 == c) then gs.map (fun g => if g.1 == c then (g.1, g.2 ++ [p]) else g)
  else gs ++ [(c, [p])]

/-- The first pass of `action_sort`: group the enumerated files by
category, in dict insertion order, without touching the filesystem. -/
def groupByCategory (files : List Path) : List (String × List Path) :=
  files.foldl (fun gs p => groupInsert gs (get_category (fileName p)) p) []

/-- The enumeration `[f for f in selected_directory.iterdir() if f.is_file()]`:
regular files directly inside the selected directory. -/
def FS.topFiles (fs : FS) : List Path :=
  (fs.files.map (fun e => e.1)).filter (fun p => p.length == 1)

/-- Candidate file name tried by the conflict loop at counter `k`:
`f"{original_stem}_{counter}{suffix}"`. -/
def candName (stem sfx : String) (k : Nat) : String :=
  stem ++ "_" ++ Nat.repr k ++ sfx

/-- The `while new_path.exists()` conflict loop, with explicit fuel.  The
fuel `conflictFuel` given below always suffices, so the fuel-exhausted
branch is never reached. -/
def findFreeName (fs : FS) (dir : Path) (stem sfx : String) :
    Nat → Nat → String
  | 0, counter => candName stem sfx counter
  | fuel + 1, counter =>
    let cand := candName stem sfx counter
    if fs.pathExists (dir ++ [cand]) then findFreeName fs dir stem sfx fuel (counter + 1)
    else cand

/-- One more than the number of paths on the filesystem: enough fuel for
the conflict loop to reach a free name. -/
def conflictFuel (fs : FS) : Nat := fs.files.length + fs.dirs.length + 1

/-- Conflict resolution of `action_sort` (lines 501-510): start from the
desired name and append `_1`, `_2`, ... before the extension until the
destination does not exist. -/
def resolveConflict (fs : FS) (dir : Path) (name : String) : Path :=
  if fs.pathExists (dir ++ [name]) then
    dir ++ [findFreeName fs dir (pyStem name) (pySuffix name) (conflictFuel fs) 1]
  else dir ++ [name]

/-- Per-file move of `action_sort`: skip a file already inside its
category directory, resolve conflicts, attempt the move, and on success
record the result and the undo entry; a failure (oracle `mf` or
`shutilMove` raising) is caught and only reported. -/
def processFile (mf : Path → Path → Bool) (cat : String) (st : AppState)
    (fp : Path) : AppState :=
  let categoryDir : Path := [cat]
  if parentDir fp == categoryDir then st
  else
    let newPath := resolveConflict st.fs categoryDir (fileName fp)
    if mf fp newPath then { st with status := "Error moving " ++ fileName fp }
    else match st.fs.shutilMove fp newPath with
      | none => { st with status := "Error moving " ++ fileName fp }
      | some fs' =>
        { st with
          fs := fs'
          last_sort_results := addResult st.last_sort_results cat newPath
          undo_data := dictInsert st.undo_data newPath fp }

/-- Per-category pass of `action_sort`: create the category directory if
nothing exists at its path, then move the category's files. -/
def processCategory (mf : Path → Path → Bool) (st : AppState)
    (g : String × List Path) : AppState :=
  if g.2.isEmpty then st
  else
    let categoryDir : Path := [g.1]
    let st1 := if st.fs.pathExists categoryDir then st
      else { st with fs := { st.fs with dirs := st.fs.dirs ++ [categoryDir] } }
    g.2.foldl (processFile mf g.1) st1

/-- Translation of `FileOrganizerPro.action_sort` on a selected directory:
enumerate direct file children, report and stop if there are none,
otherwise reset the results and the undo log, group by category and run
the two-phase move. -/
def action_sort (mf : Path → Path → Bool) (st : AppState) : AppState :=
  let files := st.fs.topFiles
  if files.isEmpty then { st with status := "No files found in the selected directory." }
  else
    let st1 := { st with last_sort_results := initResults, undo_data := [] }
    let groups := groupByCategory files
    let st2 := groups.foldl (processCategory mf) st1
    let total := (st2.last_sort_results.map (fun e => e.2.length)).sum
    { st2 with status := "Sorting complete. " ++ Nat.repr total ++ " files sorted into categories." }

/-- One reversal step of `undo_sort`: if the destination still exists,
remember its parent directory and try to move it back; failures are
caught. -/
def undoStep (mf : Path → Path → Bool) (acc : FS × List Path)
    (r : Path × Path) : FS × List Path :=
  if acc.1.pathExists r.1 then
    let touched := if acc.2.contains (parentDir r.1) then acc.2
      else acc.2 ++ [parentDir r.1]
    if mf r.1 r.2 then (acc.1, touched)
    else match acc.1.shutilMove r.1 r.2 with
      | none => (acc.1, touched)
      | some fs' => (fs', touched)
  else acc

/-- Cleanup step of `undo_sort`: remove a touched directory if it exists
and is empty; `iterdir` on a non-directory raises and is caught. -/
def removeDirStep (acc : FS × Nat) (d : Path) : FS × Nat :=
  if acc.1.pathExists d then
    if acc.1.fileExists d then acc
    else if acc.1.hasChild d then acc
    else (⟨acc.1.files, acc.1.dirs.filter (fun x => x != d)⟩, acc.2 + 1)
  else acc

/-- Translation of `FileOrganizerPro.undo_sort`: report when the log is
empty, otherwise reverse every recorded move, prune emptied touched
directories, and clear the log and the results unconditionally. -/
def undo_sort (mf : Path → Path → Bool) (st : AppState) : AppState :=
  if st.undo_data.isEmpty then { st with status := "Nothing to undo." }
  else
    let moved := st.undo_data.foldl (undoStep mf) (st.fs, [])
    let cleaned := moved.2.foldl removeDirStep (moved.1, 0)
    { fs := cleaned.1
      last_sort_results := []
      undo_data := []
      status := if cleaned.2 > 0 then
        "Undo complete. Files restored to their original locations." ++
          " Removed " ++ Nat.repr cleaned.2 ++ " empty directories."
      else "Undo complete. Files restored to their original locations." }

/-- The oracle for a run in which the host filesystem raises no error. -/
def noMoveFailure : Path → Path → Bool := fun _ _ => false

/-- One step of decoding a decimal digit string, most significant first. -/
def decodeDigitStep (a : Nat) (c : Char) : Nat := 10 * a + (c.toNat - 48)

/-- Shape of a well-formed extension string: a dot followed by at least
one character, with no further dot. -/
def extShapeOk (ext : String) : Bool :=
  match ext.data with
  | c :: rest => c == '.' && !rest.isEmpty && !rest.contains '.'
  | [] => false

/-- Example state: the destination category folder already holds
`report.pdf` and a second `report.pdf` sits at top level. -/
def conflictExampleState : AppState :=
  ⟨⟨[(["report.pdf"], "second"), (["Documents", "report.pdf"], "first")],
    [["Documents"]]⟩, [], [], "Ready."⟩

/-- The state after sorting `conflictExampleState`, with a third colliding
`report.pdf` then dropped at top level. -/
def conflictExampleState2 : AppState :=
  let st := action_sort noMoveFailure conflictExampleState
  { st with fs := { st.fs with files := st.fs.files ++ [(["report.pdf"], "third")] } }

/-- A flat directory holding a file literally named `Documents` next to a
PDF; sorting then undoing does not restore it. -/
def categoryCollisionState : AppState :=
  ⟨⟨[(["Documents"], "payload"), (["a.pdf"], "doc")], []⟩, [], [], "Ready."⟩

/-- A flat directory in which `a.pdf` is enumerated before a file
literally named `Documents`: the first sort cannot move `a.pdf`. -/
def idempotenceCexState : AppState :=
  ⟨⟨[(["a.pdf"], "doc"), (["Documents"], "payload")], []⟩, [], [], "Ready."⟩

/-- The flat example directory of the specification scenario. -/
def flatExampleState : AppState :=
  ⟨⟨[(["a.pdf"], "1"), (["b.jpg"], "2"), (["c.mp3"], "3"), (["d.xyz"], "4")],
    []⟩, [], [], "Ready."⟩

/-- A failure oracle under which every move of `b.jpg` raises. -/
def failOnB : Path → Path → Bool := fun src _ => src == ["b.jpg"]

/-- A selected directory with no direct file children (only a
subdirectory). -/
def emptyDirState : AppState :=
  ⟨⟨[], [["Music"]]⟩, [], [], "Ready."⟩

/-- A successful move performed during one sort: source path, destination
path and content moved. -/
structure MoveEv where
  src : Path
  dst : Path
  content : String
deriving DecidableEq

/-- Sources of a list of successful moves. -/
def srcsOf (moved : List MoveEv) : List Path := moved.map (fun m => m.src)

/-- Destinations of a list of successful moves. -/
def dstsOf (moved : List MoveEv) : List Path := moved.map (fun m => m.dst)

/-- Invariant of `action_sort`'s second pass, relating the running state
`st` to the initial filesystem `fs0`: `done` lists the enumerated files
already iterated over and `moved` the moves that succeeded so far. -/
def SortInv (mf : Path → Path → Bool) (fs0 : FS) (done : List Path)
    (moved : List MoveEv) (st : AppState) : Prop :=
  st.fs.files =
      fs0.files.filter (fun e => !((srcsOf moved).contains e.1)) ++
        moved.map (fun m => (m.dst, m.content)) ∧
  (∃ newDirs : List Path,
    st.fs.dirs = fs0.dirs ++ newDirs ∧ newDirs.Nodup ∧
    ∀ d ∈ newDirs, d.length = 1 ∧
      ∃ p ∈ fs0.topFiles, d = [get_category (fileName p)]) ∧
  st.undo_data = moved.map (fun m => (m.dst, m.src)) ∧
  (∀ m ∈ moved, m.src ∈ done ∧ m.src ∈ fs0.topFiles ∧
    fs0.getFile m.src = some m.content ∧ m.dst.length = 2 ∧
    m.dst ∉ fs0.allPaths ∧ mf m.src m.dst = false ∧
    parentDir m.dst = [get_category (fileName m.src)] ∧
    (parentDir m.dst ∈ st.fs.dirs ∨
      parentDir m.dst ∈ fs0.files.map (fun e => e.1))) ∧
  (dstsOf moved).Nodup ∧ (srcsOf moved).Nodup ∧
  (∀ p ∈ done, (∀ q, mf p q = false) →
    (∀ q ∈ fs0.topFiles, fileName q ≠ get_category (fileName p)) →
    p ∈ srcsOf moved)

/-! ### Theorems -/

/-! #### Injectivity of `Nat.repr` -/

theorem digitChar_decode : ∀ m, m < 10 → (Nat.digitChar m).toNat - 48 = m := by
  decide

theorem toDigitsCore_append (f : Nat) :
    ∀ (n : Nat) (acc : List Char),
      Nat.toDigitsCore 10 f n acc = Nat.toDigitsCore 10 f n [] ++ acc := by
  induction f with
  | zero => intro n acc; rfl
  | succ f ih =>
    intro n acc
    simp only [Nat.toDigitsCore]
    by_cases h : n / 10 = 0
    · simp [h]
    · simp only [h, if_false]
      rw [ih (n / 10) (Nat.digitChar (n % 10) :: acc),
        ih (n / 10) [Nat.digitChar (n % 10)]]
      simp

theorem toDigitsCore_decode (f : Nat) :
    ∀ (n a : Nat), n < f →
      List.foldl decodeDigitStep a (Nat.toDigitsCore 10 f n []) =
        a * 10 ^ (Nat.toDigitsCore 10 f n []).length + n := by
  induction f with
  | zero => intro n a hn; omega
  | succ f ih =>
    intro n a hn
    by_cases h : n / 10 = 0
    · have hn10 : n < 10 := by omega
      have hT : Nat.toDigitsCore 10 (f + 1) n [] = [Nat.digitChar (n % 10)] := by
        simp only [Nat.toDigitsCore]
        rw [if_pos h]
      rw [hT]
      simp only [List.foldl_cons, List.foldl_nil, List.length_cons,
        List.length_nil, decodeDigitStep]
      rw [Nat.mod_eq_of_lt hn10, digitChar_decode n hn10]
      simp only [pow_succ, pow_zero, Nat.zero_add, Nat.one_mul]
      ring
    · have hpos : 0 < n := by
        rcases Nat.eq_zero_or_pos n with h0 | h0
        · exact absurd (by simp [h0]) h
        · exact h0
      have hlt : n / 10 < f := by
        have := Nat.div_lt_self hpos (by omega : 1 < 10)
        omega
      have hT : Nat.toDigitsCore 10 (f + 1) n [] =
          Nat.toDigitsCore 10 f (n / 10) [] ++ [Nat.digitChar (n % 10)] := by
        simp only [Nat.toDigitsCore]
        rw [if_neg h]
        exact toDigitsCore_append f (n / 10) [Nat.digitChar (n % 10)]
      rw [hT, List.foldl_append, List.length_append, ih (n / 10) a hlt]
      simp only [List.foldl_cons, List.foldl_nil, List.length_cons,
        List.length_nil, decodeDigitStep]
      rw [digitChar_decode (n % 10) (Nat.mod_lt n (by omega))]
      have hdm := Nat.div_add_mod n 10
      calc 10 * (a * 10 ^ (Nat.toDigitsCore 10 f (n / 10) []).length + n / 10) + n % 10
          = a * (10 ^ (Nat.toDigitsCore 10 f (n / 10) []).length * 10) +
              (10 * (n / 10) + n % 10) := by ring
        _ = a * 10 ^ ((Nat.toDigitsCore 10 f (n / 10) []).length + (0 + 1)) + n := by
              rw [hdm, Nat.zero_add, ← pow_succ]

theorem decode_toDigits (n : Nat) :
    List.foldl decodeDigitStep 0 (Nat.toDigits 10 n) = n := by
  have := toDigitsCore_decode (n + 1) n 0 (Nat.lt_succ_self n)
  simpa [Nat.toDigits] using this

theorem repr_injective : Function.Injective Nat.repr := by
  intro m n h
  have hd : Nat.toDigits 10 m = Nat.toDigits 10 n := congrArg String.data h
  have hm := decode_toDigits m
  rw [hd, decode_toDigits] at hm
  exact hm.symm

/-! #### Basic filesystem lemmas -/

theorem FS.fileExists_iff {fs : FS} {p : Path} :
    fs.fileExists p = true ↔ p ∈ fs.files.map (fun e => e.1) := by
  simp [FS.fileExists, List.any_eq_true]

theorem FS.dirExists_iff {fs : FS} {p : Path} :
    fs.dirExists p = true ↔ p ∈ fs.dirs := by
  simp [FS.dirExists]

theorem FS.pathExists_iff {fs : FS} {p : Path} :
    fs.pathExists p = true ↔ p ∈ fs.allPaths := by
  simp [FS.pathExists, FS.allPaths, FS.fileExists_iff, FS.dirExists_iff]

theorem FS.pathExists_eq_false_iff {fs : FS} {p : Path} :
    fs.pathExists p = false ↔ p ∉ fs.allPaths := by
  rw [← Bool.not_eq_true, not_iff_not]
  exact FS.pathExists_iff

/-! #### The conflict loop returns a fresh destination -/

theorem candName_injective (stem sfx : String) :
    Function.Injective (candName stem sfx) := by
  intro i j h
  apply repr_injective
  have hd := congrArg String.data h
  simp only [candName, String.data_append] at hd
  have h1 := List.append_cancel_right hd
  have h2 := List.append_cancel_left h1
  exact String.ext h2

theorem findFreeName_free (fs : FS) (dir : Path) (stem sfx : String) :
    ∀ (fuel counter : Nat),
      (∃ j, j < fuel ∧ fs.pathExists (dir ++ [candName stem sfx (counter + j)]) = false) →
      fs.pathExists (dir ++ [findFreeName fs dir stem sfx fuel counter]) = false := by
  intro fuel
  induction fuel with
  | zero =>
    intro counter h
    rcases h with ⟨j, hj, _⟩
    exact absurd hj (Nat.not_lt_zero j)
  | succ fuel ih =>
    intro counter h
    rcases h with ⟨j, hj, hfree⟩
    cases hc : fs.pathExists (dir ++ [candName stem sfx counter]) with
    | true =>
      have hstep : findFreeName fs dir stem sfx (fuel + 1) counter =
          findFreeName fs dir stem sfx fuel (counter + 1) := by
        simp only [findFreeName]
        rw [if_pos hc]
      rw [hstep]
      apply ih
      have hj0 : j ≠ 0 := by
        intro h0
        rw [h0, Nat.add_zero] at hfree
        rw [hfree] at hc
        exact Bool.false_ne_true hc
      exact ⟨j - 1, by omega, by
        have heq : counter + 1 + (j - 1) = counter + j := by omega
        rw [heq]; exact hfree⟩
    | false =>
      have hstep : findFreeName fs dir stem sfx (fuel + 1) counter =
          candName stem sfx counter := by
        simp only [findFreeName]
        rw [if_neg (by simp [hc])]
      rw [hstep]
      exact hc

theorem exists_free_candidate (fs : FS) (dir : Path) (stem sfx : String)
    (counter : Nat) :
    ∃ j, j < conflictFuel fs ∧
      fs.pathExists (dir ++ [candName stem sfx (counter + j)]) = false := by
  by_contra hall
  push_neg at hall
  have hmem : ∀ j < conflictFuel fs,
      (dir ++ [candName stem sfx (counter + j)]) ∈ fs.allPaths := by
    intro j hj
    have hb := hall j hj
    cases hx : fs.pathExists (dir ++ [candName stem sfx (counter + j)]) with
    | false => exact absurd hx hb
    | true => exact FS.pathExists_iff.mp hx
  set L := (List.range (conflictFuel fs)).map
    (fun j => dir ++ [candName stem sfx (counter + j)]) with hL
  have hnd : L.Nodup := by
    apply List.Nodup.map _ (List.nodup_range _)
    intro i j hij
    have h1 := List.append_cancel_left hij
    have h2 : candName stem sfx (counter + i) = candName stem sfx (counter + j) := by
      simpa using h1
    have := candName_injective stem sfx h2
    omega
  have hsub : L ⊆ fs.allPaths := by
    intro x hx
    rw [hL, List.mem_map] at hx
    rcases hx with ⟨j, hj, rfl⟩
    exact hmem j (List.mem_range.mp hj)
  have hle := (List.subperm_of_subset hnd hsub).length_le
  have hlen : L.length = conflictFuel fs := by simp [hL]
  have hAP : fs.allPaths.length = fs.files.length + fs.dirs.length := by
    simp [FS.allPaths]
  rw [hlen, hAP] at hle
  simp [conflictFuel] at hle

theorem resolveConflict_not_exists (fs : FS) (dir : Path) (name : String) :
    fs.pathExists (resolveConflict fs dir name) = false := by
  unfold resolveConflict
  cases h : fs.pathExists (dir ++ [name]) with
  | true =>
    rw [if_pos rfl]
    exact findFreeName_free fs dir (pyStem name) (pySuffix name)
      (conflictFuel fs) 1
      (exists_free_candidate fs dir (pyStem name) (pySuffix name) 1)
  | false =>
    rw [if_neg (by simp)]
    exact h

theorem resolveConflict_shape (fs : FS) (dir : Path) (name : String) :
    ∃ nm, resolveConflict fs dir name = dir ++ [nm] := by
  unfold resolveConflict
  cases h : fs.pathExists (dir ++ [name]) with
  | true =>
    rw [if_pos rfl]
    exact ⟨_, rfl⟩
  | false =>
    rw [if_neg (by simp)]
    exact ⟨name, rfl⟩

/-! #### Classifier lemmas -/

theorem char_toNat_ofNat {m : Nat} (h : m.isValidChar) :
    (Char.ofNat m).toNat = m := by
  simp [Char.ofNat, h, Char.ofNatAux, Char.toNat, UInt32.toNat]

theorem toLower_eq_dot {c : Char} (h : Char.toLower c = '.') : c = '.' := by
  unfold Char.toLower at h
  simp only [] at h
  by_cases hc : c.toNat ≥ 65 ∧ c.toNat ≤ 90
  · rw [if_pos hc] at h
    exfalso
    have hvalid : (c.toNat + 32).isValidChar := Or.inl (by omega)
    have h2 := congrArg Char.toNat h
    rw [char_toNat_ofNat hvalid] at h2
    have h46 : ('.' : Char).toNat = 46 := by decide
    omega
  · rw [if_neg hc] at h
    exact h

theorem takeWhile_append_cons {p : Char → Bool} (l1 : List Char) (c : Char)
    (l2 : List Char) (h1 : ∀ x ∈ l1, p x = true) (hc : p c = false) :
    (l1 ++ c :: l2).takeWhile p = l1 := by
  induction l1 with
  | nil => simp [List.takeWhile, hc]
  | cons x xs ih =>
    have hx : p x = true := h1 x (List.mem_cons_self x xs)
    rw [List.cons_append, List.takeWhile_cons_of_pos hx,
      ih (fun y hy => h1 y (List.mem_cons_of_mem x hy))]

theorem string_data_ne_nil {s : String} (h : s ≠ "") : s.data ≠ [] := by
  intro hd
  exact h (String.ext hd)

theorem pySuffix_append {s e : String} {rest : List Char}
    (hs : s.data ≠ []) (he : e.data = '.' :: rest) (hr : rest ≠ [])
    (hnd : '.' ∉ rest) :
    pySuffix (s ++ e) = e := by
  have hdata : (s ++ e).data = s.data ++ ('.' :: rest) := by
    rw [String.data_append, he]
  have hrev : (s.data ++ '.' :: rest).reverse =
      rest.reverse ++ '.' :: s.data.reverse := by
    simp
  have htw : (rest.reverse ++ '.' :: s.data.reverse).takeWhile
      (fun c => c != '.') = rest.reverse := by
    apply takeWhile_append_cons
    · intro x hx
      simp only [bne_iff_ne, ne_eq]
      intro hxx
      rw [hxx] at hx
      exact hnd (List.mem_reverse.mp hx)
    · simp
  have hslen : 0 < s.data.length := List.length_pos.mpr hs
  have hrlen : 0 < rest.length := List.length_pos.mpr hr
  have e1 : rest.reverse.length = rest.length := List.length_reverse rest
  have e2 : (rest.reverse ++ '.' :: s.data.reverse).length =
      rest.length + (s.data.reverse.length + 1) := by
    rw [List.length_append, List.length_reverse, List.length_cons]
  have e3 : s.data.reverse.length = s.data.length := List.length_reverse s.data
  simp only [pySuffix, hdata, hrev, htw]
  rw [e1, e2, e3]
  rw [if_neg (by omega), if_neg (by omega), if_neg (by omega)]
  apply String.ext
  simp [he]

theorem pySuffix_dotfile {name : String} {rest : List Char}
    (he : name.data = '.' :: rest) (hnd : '.' ∉ rest) :
    pySuffix name = "" := by
  have hrev : name.data.reverse = rest.reverse ++ '.' :: [] := by
    rw [he]; simp
  have htw : (rest.reverse ++ '.' :: []).takeWhile (fun c => c != '.') =
      rest.reverse := by
    apply takeWhile_append_cons
    · intro x hx
      simp only [bne_iff_ne, ne_eq]
      intro hxx
      rw [hxx] at hx
      exact hnd (List.mem_reverse.mp hx)
    · simp
  by_cases hnil : rest = []
  · subst hnil
    simp only [pySuffix, hrev, htw]
    simp
  · have hrlen : 0 < rest.length := List.length_pos.mpr hnil
    have e1 : rest.reverse.length = rest.length := List.length_reverse rest
    have e2 : (rest.reverse ++ '.' :: []).length = rest.length + 1 := by
      rw [List.length_append, List.length_reverse, List.length_cons,
        List.length_nil]
    simp only [pySuffix, hrev, htw]
    rw [e1, e2]
    rw [if_neg (by omega), if_neg (by omega), if_pos rfl]

theorem extShapeOk_spec {ext : String} (h : extShapeOk ext = true) :
    ∃ rest, ext.data = '.' :: rest ∧ rest ≠ [] ∧ '.' ∉ rest := by
  unfold extShapeOk at h
  cases hd : ext.data with
  | nil => rw [hd] at h; simp at h
  | cons c rest =>
    rw [hd] at h
    simp only [Bool.and_eq_true, beq_iff_eq, Bool.not_eq_true'] at h
    obtain ⟨⟨hc, hne⟩, hnc⟩ := h
    refine ⟨rest, ?_, ?_, ?_⟩
    · rw [hc]
    · intro hnil
      rw [hnil] at hne
      simp at hne
    · intro hmem
      have hcontains : rest.contains '.' = true := by
        rw [List.contains_eq_any_beq, List.any_eq_true]
        exact ⟨'.', hmem, by simp⟩
      rw [hcontains] at hnc
      simp at hnc

theorem table_ext_shape : ∀ e ∈ CATEGORIES, ∀ ext ∈ e.2, extShapeOk ext = true := by
  decide

theorem strLower_data (s : String) : (strLower s).data = s.data.map Char.toLower := rfl

/-! #### Step equations for the sort pass -/

theorem contains_append_singleton {l : List Path} {a x : Path} :
    (l ++ [a]).contains x = (l.contains x || x == a) := by
  rw [Bool.eq_iff_iff]
  simp

theorem find?_filter_of_imp {α : Type} (l : List α) (p q : α → Bool)
    (h : ∀ a, p a = true → q a = true) :
    (l.filter q).find? p = l.find? p := by
  induction l with
  | nil => rfl
  | cons a t ih =>
    cases hq : q a with
    | true =>
      rw [List.filter_cons_of_pos hq]
      cases hp : p a with
      | true => rw [List.find?_cons_of_pos _ hp, List.find?_cons_of_pos _ hp]
      | false => rw [List.find?_cons_of_neg _ (by simp [hp]), List.find?_cons_of_neg _ (by simp [hp]), ih]
    | false =>
      rw [List.filter_cons_of_neg (by simp [hq])]
      have hp : p a = false := by
        cases hpa : p a with
        | true => rw [h a hpa] at hq; exact absurd hq (by simp)
        | false => rfl
      rw [List.find?_cons_of_neg _ (by simp [hp]), ih]

theorem shutilMove_success {fs : FS} {src dst : Path} {cont : String}
    (hd : fs.dirExists dst = false) (he : fs.pathExists dst = false)
    (hpd : parentDir dst = [] ∨ fs.dirExists (parentDir dst) = true)
    (hg : fs.getFile src = some cont) :
    fs.shutilMove src dst =
      some ⟨fs.files.filter (fun e => e.1 != src) ++ [(dst, cont)], fs.dirs⟩ := by
  have hcond : (!(parentDir dst).isEmpty && !(fs.dirExists (parentDir dst))) = false := by
    rcases hpd with h | h
    · rw [h]
      rfl
    · rw [h]
      simp
  simp only [FS.shutilMove, hd, Bool.false_eq_true, if_false, he, hcond, hg]

theorem processFile_eq_fail {mf : Path → Path → Bool} {c : String}
    {st : AppState} {fp : Path}
    (h : (parentDir fp == ([c] : Path)) = false)
    (hmf : mf fp (resolveConflict st.fs [c] (fileName fp)) = true) :
    processFile mf c st fp = { st with status := "Error moving " ++ fileName fp } := by
  simp only [processFile, h, Bool.false_eq_true, if_false, hmf, if_true]

theorem processFile_eq_err {mf : Path → Path → Bool} {c : String}
    {st : AppState} {fp : Path}
    (h : (parentDir fp == ([c] : Path)) = false)
    (hmf : mf fp (resolveConflict st.fs [c] (fileName fp)) = false)
    (hmv : st.fs.shutilMove fp (resolveConflict st.fs [c] (fileName fp)) = none) :
    processFile mf c st fp = { st with status := "Error moving " ++ fileName fp } := by
  simp only [processFile, h, Bool.false_eq_true, if_false, hmf, hmv]

theorem processFile_eq_success {mf : Path → Path → Bool} {c : String}
    {st : AppState} {fp : Path} {fs' : FS}
    (h : (parentDir fp == ([c] : Path)) = false)
    (hmf : mf fp (resolveConflict st.fs [c] (fileName fp)) = false)
    (hmv : st.fs.shutilMove fp (resolveConflict st.fs [c] (fileName fp)) = some fs') :
    processFile mf c st fp =
      { st with
        fs := fs'
        last_sort_results := addResult st.last_sort_results c
          (resolveConflict st.fs [c] (fileName fp))
        undo_data := dictInsert st.undo_data
          (resolveConflict st.fs [c] (fileName fp)) fp } := by
  simp only [processFile, h, Bool.false_eq_true, if_false, hmf, hmv]

theorem processCategory_eq {mf : Path → Path → Bool} {st : AppState}
    {g : String × List Path} (hne : g.2.isEmpty = false) :
    processCategory mf st g =
      g.2.foldl (processFile mf g.1)
        (if st.fs.pathExists [g.1] then st
         else { st with fs := { st.fs with dirs := st.fs.dirs ++ [[g.1]] } }) := by
  simp only [processCategory, hne, Bool.false_eq_true, if_false]

theorem action_sort_eq_empty {mf : Path → Path → Bool} {st : AppState}
    (h : st.fs.topFiles.isEmpty = true) :
    action_sort mf st = { st with status := "No files found in the selected directory." } := by
  simp only [action_sort, h, if_true]

theorem action_sort_fields {mf : Path → Path → Bool} {st : AppState}
    (h : st.fs.topFiles.isEmpty = false) :
    (action_sort mf st).fs =
      ((groupByCategory st.fs.topFiles).foldl (processCategory mf)
        { st with last_sort_results := initResults, undo_data := [] }).fs ∧
    (action_sort mf st).last_sort_results =
      ((groupByCategory st.fs.topFiles).foldl (processCategory mf)
        { st with last_sort_results := initResults, undo_data := [] }).last_sort_results ∧
    (action_sort mf st).undo_data =
      ((groupByCategory st.fs.topFiles).foldl (processCategory mf)
        { st with last_sort_results := initResults, undo_data := [] }).undo_data := by
  refine ⟨?_, ?_, ?_⟩ <;> simp [action_sort, h]

theorem SortInv_of_fields {mf : Path → Path → Bool} {fs0 : FS}
    {done : List Path} {moved : List MoveEv} {st st' : AppState}
    (hfs : st'.fs = st.fs) (hu : st'.undo_data = st.undo_data)
    (h : SortInv mf fs0 done moved st) :
    SortInv mf fs0 done moved st' := by
  unfold SortInv at h ⊢
  rw [hfs, hu]
  exact h

theorem mem_topFiles {fs : FS} {p : Path} :
    p ∈ fs.topFiles ↔ p ∈ fs.files.map (fun e => e.1) ∧ p.length = 1 := by
  simp [FS.topFiles, List.mem_filter]

theorem FS.shutilMove_dirs {fs fs' : FS} {src dst : Path}
    (h : fs.shutilMove src dst = some fs') : fs'.dirs = fs.dirs := by
  simp only [FS.shutilMove] at h
  by_cases h1 : fs.pathExists (if fs.dirExists dst then dst ++ [fileName src] else dst) = true
  · rw [if_pos h1] at h
    exact absurd h (by simp)
  · rw [if_neg h1] at h
    by_cases h1b : (!(parentDir (if fs.dirExists dst then dst ++ [fileName src] else dst)).isEmpty &&
        !(fs.dirExists (parentDir (if fs.dirExists dst then dst ++ [fileName src] else dst)))) = true
    · rw [if_pos h1b] at h
      exact absurd h (by simp)
    · rw [if_neg h1b] at h
      cases h2 : fs.getFile src with
      | none => rw [h2] at h; exact absurd h (by simp)
      | some cont =>
        rw [h2] at h
        have h3 := Option.some.inj h
        rw [← h3]

theorem processFile_dirs (mf : Path → Path → Bool) (c : String)
    (st : AppState) (fp : Path) : (processFile mf c st fp).fs.dirs = st.fs.dirs := by
  simp only [processFile]
  split
  · rfl
  · split
    · rfl
    · split
      · rfl
      · next fs' heq => exact FS.shutilMove_dirs heq

theorem processFile_inv {mf : Path → Path → Bool} {fs0 : FS}
    {done : List Path} {moved : List MoveEv} {st : AppState} {c : String}
    {fp : Path}
    (hinv : SortInv mf fs0 done moved st)
    (hfp : fp ∈ fs0.topFiles) (hnew : fp ∉ done)
    (hcat : get_category (fileName fp) = c)
    (hcdir : [c] ∈ st.fs.dirs ∨ ∃ q ∈ fs0.topFiles, fileName q = c) :
    ∃ moved', SortInv mf fs0 (done ++ [fp]) moved'
        (processFile mf c st fp) ∧
      ∃ suffix, moved' = moved ++ suffix ∧ ∀ ev ∈ suffix,
        ev.src = fp ∧ parentDir ev.dst = [c] := by
  obtain ⟨hF, hDex, hU, hM, hDstNd, hSrcNd, hO⟩ := hinv
  obtain ⟨newDirs, hD, hDnd, hDall⟩ := hDex
  have hfp1 : fp.length = 1 := (mem_topFiles.mp hfp).2
  have hfpkeys : fp ∈ fs0.files.map (fun e => e.1) := (mem_topFiles.mp hfp).1
  have hfpnotsrc : fp ∉ srcsOf moved := by
    intro hmem
    simp only [srcsOf, List.mem_map] at hmem
    obtain ⟨m, hm, hms⟩ := hmem
    exact hnew (hms ▸ (hM m hm).1)
  have hskip : (parentDir fp == ([c] : Path)) = false := by
    obtain ⟨nm, rfl⟩ := List.length_eq_one.mp hfp1
    simp [parentDir]
  have hfree : st.fs.pathExists (resolveConflict st.fs [c] (fileName fp)) = false :=
    resolveConflict_not_exists st.fs [c] (fileName fp)
  obtain ⟨nm2, hnm2⟩ := resolveConflict_shape st.fs [c] (fileName fp)
  have hnp2 : (resolveConflict st.fs [c] (fileName fp)).length = 2 := by
    rw [hnm2]; rfl
  have hnppar : parentDir (resolveConflict st.fs [c] (fileName fp)) = [c] := by
    rw [hnm2]; rfl
  have hnpfile : st.fs.fileExists (resolveConflict st.fs [c] (fileName fp)) = false := by
    have h0 := hfree
    simp only [FS.pathExists, Bool.or_eq_false_iff] at h0
    exact h0.1
  have hnpdir : st.fs.dirExists (resolveConflict st.fs [c] (fileName fp)) = false := by
    have h0 := hfree
    simp only [FS.pathExists, Bool.or_eq_false_iff] at h0
    exact h0.2
  -- the destination-entry block of the current file list never holds fp
  have hgetB : (moved.map (fun m => (m.dst, m.content))).find?
      (fun e => e.1 == fp) = none := by
    rw [List.find?_eq_none]
    intro x hx
    simp only [List.mem_map] at hx
    obtain ⟨m, hm, rfl⟩ := hx
    have hlen := (hM m hm).2.2.2.1
    simp only [Bool.not_eq_true, beq_eq_false_iff_ne, ne_eq]
    intro hdst
    rw [hdst] at hlen
    rw [hfp1] at hlen
    exact absurd hlen (by omega)
  have hgetA : (fs0.files.filter (fun e => !((srcsOf moved).contains e.1))).find?
      (fun e => e.1 == fp) = fs0.files.find? (fun e => e.1 == fp) := by
    apply find?_filter_of_imp
    intro a ha
    rw [beq_iff_eq] at ha
    rw [ha]
    simp only [Bool.not_eq_true']
    cases hc2 : (srcsOf moved).contains fp with
    | false => rfl
    | true =>
      exfalso
      exact hfpnotsrc (by simpa using hc2)
  have hget : st.fs.getFile fp = fs0.getFile fp := by
    rw [FS.getFile, FS.getFile, hF, List.find?_append, hgetA, hgetB, Option.or_none]
  obtain ⟨cont, hcont⟩ : ∃ cont, fs0.getFile fp = some cont := by
    simp only [List.mem_map] at hfpkeys
    obtain ⟨e, he, hekey⟩ := hfpkeys
    cases hfind : fs0.files.find? (fun x => x.1 == fp) with
    | none =>
      exfalso
      rw [List.find?_eq_none] at hfind
      have h0 := hfind e he
      simp [hekey] at h0
    | some e2 => exact ⟨e2.2, by rw [FS.getFile, hfind]; rfl⟩
  -- facts about the destination
  have hdstentry : ∀ m ∈ moved, (m.dst, m.content) ∈ st.fs.files := by
    intro m hm
    rw [hF]
    exact List.mem_append_right _ (List.mem_map.mpr ⟨m, hm, rfl⟩)
  have hnpnotdst : ∀ m ∈ moved, m.dst ≠ resolveConflict st.fs [c] (fileName fp) := by
    intro m hm heq
    have hfe : st.fs.fileExists (resolveConflict st.fs [c] (fileName fp)) = true := by
      rw [FS.fileExists, List.any_eq_true]
      exact ⟨(m.dst, m.content), hdstentry m hm, by simp [heq]⟩
    rw [hfe] at hnpfile
    exact absurd hnpfile (by simp)
  have hnpnotall : resolveConflict st.fs [c] (fileName fp) ∉ fs0.allPaths := by
    intro hmem
    rw [FS.allPaths, List.mem_append] at hmem
    rcases hmem with hk | hd2
    · simp only [List.mem_map] at hk
      obtain ⟨e, he, hekey⟩ := hk
      by_cases hsrc : e.1 ∈ srcsOf moved
      · simp only [srcsOf, List.mem_map] at hsrc
        obtain ⟨m, hm, hms⟩ := hsrc
        have := (hM m hm).2.1
        have hl1 : e.1.length = 1 := by rw [← hms]; exact (mem_topFiles.mp this).2
        rw [hekey] at hl1
        rw [hnp2] at hl1
        exact absurd hl1 (by omega)
      · have hsurv : e ∈ st.fs.files := by
          rw [hF]
          apply List.mem_append_left
          rw [List.mem_filter]
          refine ⟨he, ?_⟩
          simp only [Bool.not_eq_true']
          cases hc2 : (srcsOf moved).contains e.1 with
          | false => rfl
          | true => exact absurd (by simpa using hc2) hsrc
        have hfe : st.fs.fileExists (resolveConflict st.fs [c] (fileName fp)) = true := by
          rw [FS.fileExists, List.any_eq_true]
          exact ⟨e, hsurv, by simp [hekey]⟩
        rw [hfe] at hnpfile
        exact absurd hnpfile (by simp)
    · have hind : resolveConflict st.fs [c] (fileName fp) ∈ st.fs.dirs := by
        rw [hD]
        exact List.mem_append_left _ hd2
      have hde : st.fs.dirExists (resolveConflict st.fs [c] (fileName fp)) = true := by
        rw [FS.dirExists]
        simpa using hind
      rw [hde] at hnpdir
      exact absurd hnpdir (by simp)
  by_cases hmf : mf fp (resolveConflict st.fs [c] (fileName fp)) = true
  · -- the oracle makes this move raise: only the status changes
    refine ⟨moved, ?_, [], by simp, by simp⟩
    rw [processFile_eq_fail hskip hmf]
    refine ⟨hF, ⟨newDirs, hD, hDnd, hDall⟩, hU, ?_, hDstNd, hSrcNd, ?_⟩
    · intro m hm
      obtain ⟨h1, h2, h3, h4, h5, h6, h7, h8⟩ := hM m hm
      exact ⟨List.mem_append_left _ h1, h2, h3, h4, h5, h6, h7, h8⟩
    · intro p hp hall hnoc
      rcases List.mem_append.mp hp with hp | hp
      · exact hO p hp hall hnoc
      · exfalso
        have hpfp : p = fp := by simpa using hp
        rw [hpfp] at hall
        rw [hall (resolveConflict st.fs [c] (fileName fp))] at hmf
        exact absurd hmf (by simp)
  · -- the oracle lets the move proceed
    have hmf' : mf fp (resolveConflict st.fs [c] (fileName fp)) = false := by
      cases h0 : mf fp (resolveConflict st.fs [c] (fileName fp)) with
      | false => rfl
      | true => exact absurd h0 hmf
    by_cases hdirc : st.fs.dirExists [c] = true
    case neg =>
      -- the category directory does not exist (a regular file occupies its
      -- name): `shutil.move` raises and only the status changes
      have hdircF : st.fs.dirExists [c] = false := by
        cases h0 : st.fs.dirExists [c] with
        | false => rfl
        | true => exact absurd h0 hdirc
      have hmv : st.fs.shutilMove fp (resolveConflict st.fs [c] (fileName fp)) = none := by
        rw [FS.shutilMove]
        simp only [hnpdir, Bool.false_eq_true, if_false]
        rw [if_neg (by simp [hfree]), if_pos (by rw [hnppar, hdircF]; rfl)]
      refine ⟨moved, ?_, [], by simp, by simp⟩
      rw [processFile_eq_err hskip hmf' hmv]
      refine ⟨hF, ⟨newDirs, hD, hDnd, hDall⟩, hU, ?_, hDstNd, hSrcNd, ?_⟩
      · intro m hm
        obtain ⟨h1, h2, h3, h4, h5, h6, h7, h8⟩ := hM m hm
        exact ⟨List.mem_append_left _ h1, h2, h3, h4, h5, h6, h7, h8⟩
      · intro p hp hall hnoc
        rcases List.mem_append.mp hp with hp | hp
        · exact hO p hp hall hnoc
        · exfalso
          have hpfp : p = fp := by simpa using hp
          rcases hcdir with hcd | ⟨q, hq, hqn⟩
          · have : st.fs.dirExists [c] = true := by
              rw [FS.dirExists]
              simpa using hcd
            exact hdirc this
          · exact hnoc q hq (by rw [hpfp, hcat]; exact hqn)
    -- the category directory exists: the move succeeds
    have hcmem : ([c] : Path) ∈ st.fs.dirs := by
      rw [FS.dirExists] at hdirc
      simpa using hdirc
    have hmv := shutilMove_success hnpdir hfree
      (Or.inr (by rw [hnppar]; exact hdirc)) (hget.trans hcont)
    rw [processFile_eq_success hskip hmf' hmv]
    refine ⟨moved ++ [⟨fp, resolveConflict st.fs [c] (fileName fp), cont⟩], ?_,
      [⟨fp, resolveConflict st.fs [c] (fileName fp), cont⟩], rfl, ?_⟩
    swap
    · intro ev hev
      have : ev = ⟨fp, resolveConflict st.fs [c] (fileName fp), cont⟩ := by
        simpa using hev
      rw [this]
      exact ⟨rfl, hnppar⟩
    refine ⟨?_, ⟨newDirs, by simpa using hD, hDnd, hDall⟩, ?_, ?_, ?_, ?_, ?_⟩
    · -- the file list equation
      show st.fs.files.filter (fun e => e.1 != fp) ++
          [(resolveConflict st.fs [c] (fileName fp), cont)] = _
      rw [hF, List.filter_append]
      have hBkeep : (moved.map (fun m => (m.dst, m.content))).filter
          (fun e => e.1 != fp) = moved.map (fun m => (m.dst, m.content)) := by
        rw [List.filter_eq_self]
        intro a ha
        simp only [List.mem_map] at ha
        obtain ⟨m, hm, rfl⟩ := ha
        have hlen := (hM m hm).2.2.2.1
        simp only [bne_iff_ne, ne_eq, decide_eq_true_eq]
        intro hdst
        rw [hdst, hfp1] at hlen
        exact absurd hlen (by omega)
      have hAfold : (fs0.files.filter (fun e => !((srcsOf moved).contains e.1))).filter
          (fun e => e.1 != fp) =
          fs0.files.filter
            (fun e => !((srcsOf (moved ++ [⟨fp, resolveConflict st.fs [c] (fileName fp), cont⟩])).contains e.1)) := by
        rw [List.filter_filter]
        apply List.filter_congr
        intro a _
        have hsrcs : srcsOf (moved ++ [⟨fp, resolveConflict st.fs [c] (fileName fp), cont⟩]) =
            srcsOf moved ++ [fp] := by
          simp [srcsOf]
        rw [hsrcs, contains_append_singleton]
        cases h1 : (srcsOf moved).contains a.1 <;> cases h2 : (a.1 == fp) <;> simp [bne, h1, h2]
      rw [hBkeep, hAfold]
      simp only [List.map_append, List.map_cons, List.map_nil, List.append_assoc]
    · -- the undo log equation
      show dictInsert st.undo_data (resolveConflict st.fs [c] (fileName fp)) fp = _
      have hkeys : st.undo_data.any
          (fun e => e.1 == resolveConflict st.fs [c] (fileName fp)) = false := by
        cases h0 : st.undo_data.any
            (fun e => e.1 == resolveConflict st.fs [c] (fileName fp)) with
        | false => rfl
        | true =>
          exfalso
          rw [List.any_eq_true] at h0
          obtain ⟨r, hr, hrkey⟩ := h0
          rw [hU] at hr
          simp only [List.mem_map] at hr
          obtain ⟨m, hm, rfl⟩ := hr
          rw [beq_iff_eq] at hrkey
          exact hnpnotdst m hm hrkey
      rw [dictInsert, if_neg (by simp [hkeys]), hU]
      simp
    · -- per-move facts
      intro m hm
      rcases List.mem_append.mp hm with hm | hm
      · obtain ⟨h1, h2, h3, h4, h5, h6, h7, h8⟩ := hM m hm
        exact ⟨List.mem_append_left _ h1, h2, h3, h4, h5, h6, h7, by simpa using h8⟩
      · have hmeq : m = ⟨fp, resolveConflict st.fs [c] (fileName fp), cont⟩ := by
          simpa using hm
        rw [hmeq]
        refine ⟨List.mem_append_right _ (by simp), hfp, hcont, hnp2, hnpnotall, hmf', ?_, ?_⟩
        · show parentDir (resolveConflict st.fs [c] (fileName fp)) = _
          rw [hnppar, hcat]
        · show parentDir (resolveConflict st.fs [c] (fileName fp)) ∈ _ ∨
            parentDir (resolveConflict st.fs [c] (fileName fp)) ∈ _
          rw [hnppar]
          exact Or.inl (by simpa using hcmem)
    · -- destination distinctness
      have : dstsOf (moved ++ [⟨fp, resolveConflict st.fs [c] (fileName fp), cont⟩]) =
          dstsOf moved ++ [resolveConflict st.fs [c] (fileName fp)] := by
        simp [dstsOf]
      rw [this, List.nodup_append]
      refine ⟨hDstNd, List.nodup_singleton _, ?_⟩
      intro a ha hb
      have : a = resolveConflict st.fs [c] (fileName fp) := by simpa using hb
      rw [this] at ha
      simp only [dstsOf, List.mem_map] at ha
      obtain ⟨m, hm, hms⟩ := ha
      exact hnpnotdst m hm hms
    · -- source distinctness
      have : srcsOf (moved ++ [⟨fp, resolveConflict st.fs [c] (fileName fp), cont⟩]) =
          srcsOf moved ++ [fp] := by
        simp [srcsOf]
      rw [this, List.nodup_append]
      refine ⟨hSrcNd, List.nodup_singleton _, ?_⟩
      intro a ha hb
      have : a = fp := by simpa using hb
      rw [this] at ha
      exact hfpnotsrc ha
    · -- completeness of the move log
      intro p hp hall hnoc
      have hsrcs2 : srcsOf (moved ++ [⟨fp, resolveConflict st.fs [c] (fileName fp), cont⟩]) =
          srcsOf moved ++ [fp] := by
        simp [srcsOf]
      rw [hsrcs2]
      rcases List.mem_append.mp hp with hp | hp
      · exact List.mem_append_left _ (hO p hp hall hnoc)
      · have hpfp : p = fp := by simpa using hp
        rw [hpfp]
        exact List.mem_append_right _ (by simp)

theorem processFiles_fold_inv {mf : Path → Path → Bool} {fs0 : FS} {c : String} :
    ∀ (l : List Path) (st : AppState) (done : List Path) (moved : List MoveEv),
      SortInv mf fs0 done moved st →
      (∀ p ∈ l, p ∈ fs0.topFiles ∧ get_category (fileName p) = c) →
      (∀ p ∈ l, p ∉ done) → l.Nodup →
      ([c] ∈ st.fs.dirs ∨ ∃ q ∈ fs0.topFiles, fileName q = c) →
      ∃ moved', SortInv mf fs0 (done ++ l) moved'
          (l.foldl (processFile mf c) st) ∧
        ∃ suffix, moved' = moved ++ suffix := by
  intro l
  induction l with
  | nil =>
    intro st done moved hinv _ _ _ _
    exact ⟨moved, by simpa using hinv, [], by simp⟩
  | cons fp t ih =>
    intro st done moved hinv hl hnd hldnd hcdir
    obtain ⟨moved1, hinv1, suffix1, hs1, _⟩ :=
      processFile_inv hinv (hl fp (by simp)).1 (hnd fp (by simp))
        (hl fp (by simp)).2 hcdir
    have hcdir1 : [c] ∈ (processFile mf c st fp).fs.dirs ∨
        ∃ q ∈ fs0.topFiles, fileName q = c := by
      rw [processFile_dirs]
      exact hcdir
    obtain ⟨moved2, hinv2, suffix2, hs2⟩ :=
      ih (processFile mf c st fp) (done ++ [fp]) moved1 hinv1
        (fun p hp => hl p (by simp [hp]))
        (fun p hp => by
          intro hm
          rcases List.mem_append.mp hm with h | h
          · exact hnd p (by simp [hp]) h
          · have hpfp : p = fp := by simpa using h
            rw [hpfp] at hp
            exact (List.nodup_cons.mp hldnd).1 hp)
        (List.nodup_cons.mp hldnd).2 hcdir1
    refine ⟨moved2, ?_, suffix1 ++ suffix2, by rw [hs2, hs1, List.append_assoc]⟩
    have hd2 : done ++ fp :: t = (done ++ [fp]) ++ t := by simp
    rw [hd2]
    simpa using hinv2

theorem processCategory_inv {mf : Path → Path → Bool} {fs0 : FS}
    {st : AppState} {done : List Path} {moved : List MoveEv}
    {g : String × List Path}
    (hinv : SortInv mf fs0 done moved st)
    (hgne : g.2 ≠ [])
    (hl : ∀ p ∈ g.2, p ∈ fs0.topFiles ∧ get_category (fileName p) = g.1)
    (hnd : ∀ p ∈ g.2, p ∉ done) (hldnd : g.2.Nodup) :
    ∃ moved', SortInv mf fs0 (done ++ g.2) moved'
        (processCategory mf st g) ∧ ∃ suffix, moved' = moved ++ suffix := by
  rw [processCategory_eq (by simpa using hgne)]
  obtain ⟨hF, hDex, hU, hM, hDstNd, hSrcNd, hO⟩ := hinv
  obtain ⟨newDirs, hD, hDnd, hDall⟩ := hDex
  by_cases hex : st.fs.pathExists [g.1] = true
  · rw [if_pos hex]
    have hcdir : [g.1] ∈ st.fs.dirs ∨ ∃ q ∈ fs0.topFiles, fileName q = g.1 := by
      rw [FS.pathExists, Bool.or_eq_true] at hex
      rcases hex with hfe | hde
      · right
        rw [FS.fileExists, List.any_eq_true] at hfe
        obtain ⟨e, he, hekey⟩ := hfe
        rw [beq_iff_eq] at hekey
        rw [hF, List.mem_append] at he
        rcases he with he | he
        · refine ⟨[g.1], mem_topFiles.mpr
            ⟨List.mem_map.mpr ⟨e, (List.mem_filter.mp he).1, hekey⟩, rfl⟩, rfl⟩
        · exfalso
          simp only [List.mem_map] at he
          obtain ⟨m, hm, hme⟩ := he
          have hlen := (hM m hm).2.2.2.1
          rw [← hme] at hekey
          simp only at hekey
          rw [hekey] at hlen
          simp at hlen
      · left
        rw [FS.dirExists] at hde
        simpa using hde
    exact processFiles_fold_inv g.2 st done moved
      ⟨hF, ⟨newDirs, hD, hDnd, hDall⟩, hU, hM, hDstNd, hSrcNd, hO⟩ hl hnd hldnd hcdir
  · rw [if_neg hex]
    have hgnotdirs : ([g.1] : Path) ∉ st.fs.dirs := by
      intro hmem
      have : st.fs.dirExists [g.1] = true := by
        rw [FS.dirExists]
        simpa using hmem
      rw [FS.pathExists, this, Bool.or_true] at hex
      exact hex rfl
    obtain ⟨p0, hp0⟩ : ∃ p0, p0 ∈ g.2 := by
      cases hg2 : g.2 with
      | nil => exact absurd hg2 hgne
      | cons a t => exact ⟨a, by simp⟩
    have hinv' : SortInv mf fs0 done moved
        { st with fs := { st.fs with dirs := st.fs.dirs ++ [[g.1]] } } := by
      refine ⟨hF, ⟨newDirs ++ [[g.1]], ?_, ?_, ?_⟩, hU, ?_, hDstNd, hSrcNd, hO⟩
      · show st.fs.dirs ++ [[g.1]] = fs0.dirs ++ (newDirs ++ [[g.1]])
        rw [hD, List.append_assoc]
      · rw [List.nodup_append]
        refine ⟨hDnd, List.nodup_singleton _, ?_⟩
        intro a ha hb
        have hab : a = [g.1] := by simpa using hb
        rw [hab] at ha
        exact hgnotdirs (by rw [hD]; exact List.mem_append_right _ ha)
      · intro d hd
        rcases List.mem_append.mp hd with hd | hd
        · exact hDall d hd
        · have hdg : d = [g.1] := by simpa using hd
          rw [hdg]
          exact ⟨rfl, p0, (hl p0 hp0).1, by rw [(hl p0 hp0).2]⟩
      · intro m hm
        obtain ⟨h1, h2, h3, h4, h5, h6, h7, h8⟩ := hM m hm
        refine ⟨h1, h2, h3, h4, h5, h6, h7, ?_⟩
        rcases h8 with h8 | h8
        · exact Or.inl (List.mem_append_left _ h8)
        · exact Or.inr h8
    have hcdir : [g.1] ∈ ({ st with fs := { st.fs with dirs := st.fs.dirs ++ [[g.1]] } } : AppState).fs.dirs ∨
        ∃ q ∈ fs0.topFiles, fileName q = g.1 := by
      left
      simp
    exact processFiles_fold_inv g.2 _ done moved hinv' hl hnd hldnd hcdir

theorem processGroups_fold_inv {mf : Path → Path → Bool} {fs0 : FS} :
    ∀ (gs : List (String × List Path)) (st : AppState) (done : List Path)
      (moved : List MoveEv),
      SortInv mf fs0 done moved st →
      (∀ g ∈ gs, g.2 ≠ []) →
      (∀ g ∈ gs, ∀ p ∈ g.2, p ∈ fs0.topFiles ∧ get_category (fileName p) = g.1) →
      ((gs.map (fun g => g.2)).flatten).Nodup →
      (∀ p ∈ (gs.map (fun g => g.2)).flatten, p ∉ done) →
      ∃ moved', SortInv mf fs0 (done ++ (gs.map (fun g => g.2)).flatten) moved'
          (gs.foldl (processCategory mf) st) := by
  intro gs
  induction gs with
  | nil =>
    intro st done moved hinv _ _ _ _
    exact ⟨moved, by simpa using hinv⟩
  | cons g rest ih =>
    intro st done moved hinv hne hcats hnd hdone
    have hflat : (((g :: rest).map (fun g => g.2)).flatten) =
        g.2 ++ ((rest.map (fun g => g.2)).flatten) := by simp
    have hnd2 := hflat ▸ hnd
    have hdone2 := hflat ▸ hdone
    obtain ⟨moved1, hinv1, suffix1, hs1⟩ :=
      processCategory_inv hinv (hne g (by simp))
        (hcats g (by simp))
        (fun p hp => hdone2 p (List.mem_append_left _ hp))
        (List.nodup_append.mp hnd2).1
    obtain ⟨moved2, hinv2⟩ :=
      ih (processCategory mf st g) (done ++ g.2) moved1 hinv1
        (fun g2 hg2 => hne g2 (by simp [hg2]))
        (fun g2 hg2 => hcats g2 (by simp [hg2]))
        (List.nodup_append.mp hnd2).2.1
        (fun p hp => by
          intro hm
          rcases List.mem_append.mp hm with h | h
          · exact hdone2 p (List.mem_append_right _ hp) h
          · exact (List.nodup_append.mp hnd2).2.2 h hp)
    refine ⟨moved2, ?_⟩
    have hd2 : done ++ ((g :: rest).map (fun g => g.2)).flatten =
        (done ++ g.2) ++ ((rest.map (fun g => g.2)).flatten) := by
      rw [hflat, List.append_assoc]
    rw [hd2]
    simpa using hinv2

theorem groupInsert_keys (gs : List (String × List Path)) (c : String) (p : Path) :
    (groupInsert gs c p).map (fun g => g.1) =
      if gs.any (fun g => g.1 == c) then gs.map (fun g => g.1)
      else gs.map (fun g => g.1) ++ [c] := by
  unfold groupInsert
  by_cases h : gs.any (fun g => g.1 == c) = true
  · rw [if_pos h, if_pos h, List.map_map]
    apply List.map_congr_left
    intro a _
    simp only [Function.comp]
    split <;> rfl
  · rw [if_neg h, if_neg h, List.map_append]
    rfl

theorem groupInsert_ne {gs : List (String × List Path)} {c : String} {p : Path}
    (h : ∀ g ∈ gs, g.2 ≠ []) :
    ∀ g ∈ groupInsert gs c p, g.2 ≠ [] := by
  intro g hg
  unfold groupInsert at hg
  by_cases hany : gs.any (fun g => g.1 == c) = true
  · rw [if_pos hany] at hg
    simp only [List.mem_map] at hg
    obtain ⟨g0, hg0, hmod⟩ := hg
    by_cases hgc : (g0.1 == c) = true
    · rw [if_pos hgc] at hmod
      rw [← hmod]
      simp
    · rw [if_neg hgc] at hmod
      rw [← hmod]
      exact h g0 hg0
  · rw [if_neg hany] at hg
    rcases List.mem_append.mp hg with hg | hg
    · exact h g hg
    · have hge : g = (c, [p]) := by simpa using hg
      rw [hge]
      simp

theorem groupInsert_cat {gs : List (String × List Path)} {c : String} {p : Path}
    (hp : get_category (fileName p) = c)
    (h : ∀ g ∈ gs, ∀ q ∈ g.2, get_category (fileName q) = g.1) :
    ∀ g ∈ groupInsert gs c p, ∀ q ∈ g.2, get_category (fileName q) = g.1 := by
  intro g hg q hq
  unfold groupInsert at hg
  by_cases hany : gs.any (fun g => g.1 == c) = true
  · rw [if_pos hany] at hg
    simp only [List.mem_map] at hg
    obtain ⟨g0, hg0, hmod⟩ := hg
    by_cases hgc : (g0.1 == c) = true
    · rw [if_pos hgc] at hmod
      rw [← hmod] at hq ⊢
      simp only at hq ⊢
      rcases List.mem_append.mp hq with hq | hq
      · exact h g0 hg0 q hq
      · have hqp : q = p := by simpa using hq
        rw [hqp, hp]
        exact (beq_iff_eq.mp hgc).symm
    · rw [if_neg hgc] at hmod
      rw [← hmod] at hq ⊢
      exact h g0 hg0 q hq
  · rw [if_neg hany] at hg
    rcases List.mem_append.mp hg with hg | hg
    · exact h g hg q hq
    · have hge : g = (c, [p]) := by simpa using hg
      rw [hge] at hq ⊢
      have hqp : q = p := by simpa using hq
      rw [hqp, hp]

theorem groupInsert_join :
    ∀ (gs : List (String × List Path)) (c : String) (p : Path),
      (gs.map (fun g => g.1)).Nodup →
      ((groupInsert gs c p).map (fun g => g.2)).flatten.Perm
        ((gs.map (fun g => g.2)).flatten ++ [p]) := by
  intro gs
  induction gs with
  | nil =>
    intro c p _
    unfold groupInsert
    simp
  | cons g rest ih =>
    intro c p hknd
    unfold groupInsert
    cases hgc : (g.1 == c) with
    | true =>
      have hany : ((g :: rest).any (fun g => g.1 == c)) = true := by
        simp [List.any_cons, hgc]
      rw [if_pos hany]
      have hcnotrest : ∀ x ∈ rest, (x.1 == c) = false := by
        intro x hx
        have hg1 : g.1 ∉ rest.map (fun g => g.1) :=
          (List.nodup_cons.mp (by simpa using hknd)).1
        cases hxc : (x.1 == c) with
        | false => rfl
        | true =>
          exfalso
          apply hg1
          rw [List.mem_map]
          exact ⟨x, hx, by rw [beq_iff_eq.mp hxc, ← beq_iff_eq.mp hgc]⟩
      have hrest : rest.map (fun x => if x.1 == c then (x.1, x.2 ++ [p]) else x) = rest := by
        have hpt : ∀ x ∈ rest, (if x.1 == c then (x.1, x.2 ++ [p]) else x) = x := by
          intro x hx
          rw [if_neg (by simp [hcnotrest x hx])]
        rw [List.map_congr_left hpt]
        simp
      rw [List.map_cons, if_pos hgc, hrest]
      simp only [List.map_cons, List.flatten_cons]
      have h1 : (g.2 ++ [p]) ++ (rest.map (fun g => g.2)).flatten =
          g.2 ++ ([p] ++ (rest.map (fun g => g.2)).flatten) := by
        rw [List.append_assoc]
      have h3 : g.2 ++ ((rest.map (fun g => g.2)).flatten ++ [p]) =
          (g.2 ++ (rest.map (fun g => g.2)).flatten) ++ [p] := by
        rw [List.append_assoc]
      rw [h1, ← h3]
      exact List.Perm.append_left _ List.perm_append_comm
    | false =>
      cases hany : (rest.any (fun g => g.1 == c)) with
      | true =>
        have hany2 : ((g :: rest).any (fun g => g.1 == c)) = true := by
          simp [List.any_cons, hany]
        rw [if_pos hany2, List.map_cons, if_neg (by simp [hgc])]
        have hih := ih c p (List.nodup_cons.mp (by simpa using hknd)).2
        unfold groupInsert at hih
        rw [if_pos hany] at hih
        simp only [List.map_cons, List.flatten_cons]
        have h3 : g.2 ++ ((rest.map (fun g => g.2)).flatten ++ [p]) =
            (g.2 ++ (rest.map (fun g => g.2)).flatten) ++ [p] := by
          rw [List.append_assoc]
        rw [← h3]
        exact List.Perm.append_left _ hih
      | false =>
        have hany2 : ((g :: rest).any (fun g => g.1 == c)) = false := by
          simp only [List.any_cons, hgc, hany, Bool.or_self]
        rw [if_neg (by simp [hany2])]
        simp

theorem groupFold_spec :
    ∀ (l : List Path) (gs : List (String × List Path)),
      (gs.map (fun g => g.1)).Nodup →
      (∀ g ∈ gs, g.2 ≠ []) →
      (∀ g ∈ gs, ∀ q ∈ g.2, get_category (fileName q) = g.1) →
      (((l.foldl (fun gs p => groupInsert gs (get_category (fileName p)) p) gs).map
          (fun g => g.1)).Nodup ∧
       (∀ g ∈ l.foldl (fun gs p => groupInsert gs (get_category (fileName p)) p) gs,
          g.2 ≠ []) ∧
       (∀ g ∈ l.foldl (fun gs p => groupInsert gs (get_category (fileName p)) p) gs,
          ∀ q ∈ g.2, get_category (fileName q) = g.1) ∧
       ((l.foldl (fun gs p => groupInsert gs (get_category (fileName p)) p) gs).map
          (fun g => g.2)).flatten.Perm ((gs.map (fun g => g.2)).flatten ++ l)) := by
  intro l
  induction l with
  | nil =>
    intro gs hknd hne hcat
    exact ⟨hknd, hne, hcat, by simp⟩
  | cons p t ih =>
    intro gs hknd hne hcat
    have hknd' : ((groupInsert gs (get_category (fileName p)) p).map
        (fun g => g.1)).Nodup := by
      rw [groupInsert_keys]
      by_cases hany : gs.any (fun g => g.1 == get_category (fileName p)) = true
      · rw [if_pos hany]; exact hknd
      · rw [if_neg hany, List.nodup_append]
        refine ⟨hknd, List.nodup_singleton _, ?_⟩
        intro a ha hb
        have hac : a = get_category (fileName p) := by simpa using hb
        apply hany
        rw [List.any_eq_true]
        simp only [List.mem_map] at ha
        obtain ⟨g0, hg0, hg0k⟩ := ha
        exact ⟨g0, hg0, by rw [hg0k, hac]; simp⟩
    obtain ⟨h1, h2, h3, h4⟩ := ih (groupInsert gs (get_category (fileName p)) p)
      hknd' (groupInsert_ne hne) (groupInsert_cat rfl hcat)
    refine ⟨h1, h2, h3, ?_⟩
    have hj := groupInsert_join gs (get_category (fileName p)) p hknd
    have hcomb := h4.trans (List.Perm.append_right t hj)
    have heq : ((gs.map (fun g => g.2)).flatten ++ [p]) ++ t =
        (gs.map (fun g => g.2)).flatten ++ (p :: t) := by simp
    rw [heq] at hcomb
    exact hcomb

theorem groupByCategory_spec (files : List Path) :
    (∀ g ∈ groupByCategory files, g.2 ≠ []) ∧
    (∀ g ∈ groupByCategory files, ∀ q ∈ g.2, get_category (fileName q) = g.1) ∧
    ((groupByCategory files).map (fun g => g.2)).flatten.Perm files := by
  obtain ⟨_, h2, h3, h4⟩ := groupFold_spec files [] (by simp) (by simp) (by simp)
  exact ⟨h2, h3, by simpa using h4⟩

theorem action_sort_spec (mf : Path → Path → Bool) (st0 : AppState)
    (hWf : st0.fs.Wf) (hne : st0.fs.topFiles.isEmpty = false) :
    ∃ moved done, done.Perm st0.fs.topFiles ∧
      SortInv mf st0.fs done moved (action_sort mf st0) := by
  obtain ⟨hg2, hg3, hg4⟩ := groupByCategory_spec st0.fs.topFiles
  have htnd : st0.fs.topFiles.Nodup := List.Nodup.filter _ hWf.1
  have hinv0 : SortInv mf st0.fs [] []
      { st0 with last_sort_results := initResults, undo_data := [] } := by
    refine ⟨?_, ⟨[], by simp, by simp, by simp⟩, by simp [srcsOf], by simp, ?_, ?_, by simp⟩
    · show st0.fs.files = _
      rw [List.filter_eq_self.mpr]
      · simp [srcsOf]
      · intro a _
        simp [srcsOf]
    · simp [dstsOf]
    · simp [srcsOf]
  obtain ⟨moved, hinv⟩ := processGroups_fold_inv (groupByCategory st0.fs.topFiles)
    { st0 with last_sort_results := initResults, undo_data := [] } [] []
    hinv0 hg2
    (fun g hg => fun p hp =>
      ⟨hg4.mem_iff.mp (List.mem_flatten.mpr ⟨g.2, List.mem_map.mpr ⟨g, hg, rfl⟩, hp⟩),
       hg3 g hg p hp⟩)
    (hg4.nodup_iff.mpr htnd)
    (by simp)
  refine ⟨moved, ((groupByCategory st0.fs.topFiles).map (fun g => g.2)).flatten,
    hg4, ?_⟩
  have hfields := @action_sort_fields mf st0 hne
  exact SortInv_of_fields hfields.1 hfields.2.2 (by simpa using hinv)

theorem filter_beq_length_eq_one {l : List Path} {p : Path}
    (hnd : l.Nodup) (hmem : p ∈ l) :
    (l.filter (fun x => x == p)).length = 1 := by
  induction l with
  | nil => simp at hmem
  | cons a t ih =>
    rw [List.filter_cons]
    by_cases hap : (a == p) = true
    · rw [if_pos hap]
      have hap2 : a = p := beq_iff_eq.mp hap
      have hpt : p ∉ t := by
        rw [← hap2]
        exact (List.nodup_cons.mp hnd).1
      have ht : t.filter (fun x => x == p) = [] := by
        rw [List.filter_eq_nil_iff]
        intro x hx hxp
        exact hpt (by rw [← beq_iff_eq.mp hxp]; exact hx)
      rw [ht]
      rfl
    · rw [if_neg hap]
      have hmem2 : p ∈ t := by
        rcases List.mem_cons.mp hmem with h | h
        · exfalso
          rw [h] at hap
          simp at hap
        · exact h
      exact ih (List.nodup_cons.mp hnd).2 hmem2

/-- C2 (amended): when no enumerated file bears the name of a category
computed for an enumerated file, a sort in which the oracle raises no
error moves every enumerated file, so the top level holds no file any
more and a second sort (under any oracle) reports "no files" and changes
neither the filesystem, nor the results, nor the undo log: running sort
twice yields the same SortResult as running it once and the second run
moves nothing.  (Files already inside a correctly named category folder
are not even enumerated, hence left untouched.) -/
theorem sort_idempotent (mf2 : Path → Path → Bool) (st0 : AppState)
    (hWf : st0.fs.Wf)
    (hnc : ∀ p ∈ st0.fs.topFiles, ∀ q ∈ st0.fs.topFiles,
      fileName p ≠ get_category (fileName q)) :
    (action_sort mf2 (action_sort noMoveFailure st0)).last_sort_results =
      (action_sort noMoveFailure st0).last_sort_results ∧
    (action_sort mf2 (action_sort noMoveFailure st0)).fs =
      (action_sort noMoveFailure st0).fs ∧
    (action_sort mf2 (action_sort noMoveFailure st0)).undo_data =
      (action_sort noMoveFailure st0).undo_data := by
  cases hne : st0.fs.topFiles.isEmpty with
  | true =>
    rw [action_sort_eq_empty hne]
    rw [action_sort_eq_empty
      (show ({ st0 with status := "No files found in the selected directory." } :
        AppState).fs.topFiles.isEmpty = true from hne)]
    exact ⟨rfl, rfl, rfl⟩
  | false =>
    obtain ⟨moved, done, hperm, hinv⟩ := action_sort_spec noMoveFailure st0 hWf hne
    obtain ⟨hF, _, hU, hM, _, _, hO⟩ := hinv
    have htop : (action_sort noMoveFailure st0).fs.topFiles = [] := by
      rw [FS.topFiles, hF]
      rw [List.filter_eq_nil_iff]
      intro a ha
      rw [List.map_append, List.mem_append] at ha
      rcases ha with ha | ha
      · obtain ⟨e, he, hekey⟩ := List.mem_map.mp ha
        have hsurv := (List.mem_filter.mp he).2
        have hnotsrc : e.1 ∉ srcsOf moved := by
          intro hmem
          rw [show ((srcsOf moved).contains e.1) = true by simpa using hmem] at hsurv
          simp at hsurv
        intro hlen
        have hetop : e.1 ∈ st0.fs.topFiles := by
          rw [mem_topFiles]
          exact ⟨List.mem_map.mpr ⟨e, (List.mem_filter.mp he).1, rfl⟩, by
            rw [hekey]; simpa using hlen⟩
        have hdone : e.1 ∈ done := hperm.mem_iff.mpr hetop
        exact hnotsrc (hO e.1 hdone (fun q => rfl)
          (fun q hq => hnc q hq e.1 hetop))
      · obtain ⟨e2, he2, hekey⟩ := List.mem_map.mp ha
        obtain ⟨m, hm, hme⟩ := List.mem_map.mp he2
        intro hlen
        have hlen2 := (hM m hm).2.2.2.1
        rw [← hme] at hekey
        simp only at hekey
        rw [hekey] at hlen2
        simp only [beq_iff_eq] at hlen
        rw [hlen] at hlen2
        exact absurd hlen2 (by omega)
    have hemp : (action_sort noMoveFailure st0).fs.topFiles.isEmpty = true := by
      rw [htop]
      rfl
    rw [action_sort_eq_empty hemp]
    exact ⟨rfl, rfl, rfl⟩

/-- Witness for C2 on the concrete four-file directory. -/
theorem sort_idempotent_witness :
    (action_sort noMoveFailure (action_sort noMoveFailure flatExampleState)).last_sort_results =
      (action_sort noMoveFailure flatExampleState).last_sort_results ∧
    (action_sort noMoveFailure (action_sort noMoveFailure flatExampleState)).fs =
      (action_sort noMoveFailure flatExampleState).fs ∧
    (action_sort noMoveFailure (action_sort noMoveFailure flatExampleState)).undo_data =
      (action_sort noMoveFailure flatExampleState).undo_data :=
  sort_idempotent noMoveFailure flatExampleState ⟨by decide, by decide, by decide⟩
    (by decide)

/-- C2 counterexample: with a regular file named `Documents` enumerated
after `a.pdf`, the first sort skips `mkdir` (the file makes the category
path exist) and the move of `a.pdf` raises; the second run finds the name
free, creates the directory and moves `a.pdf`: the two runs yield
different results and the second run does move a file. -/
theorem sort_idempotent_cex :
    (action_sort noMoveFailure (action_sort noMoveFailure
        idempotenceCexState)).last_sort_results ≠
      (action_sort noMoveFailure idempotenceCexState).last_sort_results ∧
    (action_sort noMoveFailure (action_sort noMoveFailure
        idempotenceCexState)).undo_data ≠ [] :=
  ⟨by decide, by decide⟩

/-- C3: per-file move failures are isolated.  A file whose every move
attempt raises keeps its original path and content and gets no record in
the undo log; more generally any enumerated file that the undo log does
not list as a source keeps its original path and content (whatever made
its move fail), and every move that succeeded left exactly one record;
every enumerated file falls into one of the two cases, so one failure
never aborts the batch. -/
theorem sort_move_failure_isolated (mf : Path → Path → Bool) (st0 : AppState)
    (hWf : st0.fs.Wf) :
    ∀ p ∈ st0.fs.topFiles,
      ((∀ q, mf p q = true) →
        (action_sort mf st0).fs.getFile p = st0.fs.getFile p ∧
        ∀ r ∈ (action_sort mf st0).undo_data, r.2 ≠ p) ∧
      (p ∉ (action_sort mf st0).undo_data.map (fun r => r.2) →
        (action_sort mf st0).fs.getFile p = st0.fs.getFile p) ∧
      (p ∈ (action_sort mf st0).undo_data.map (fun r => r.2) →
        ((action_sort mf st0).undo_data.filter (fun r => r.2 == p)).length = 1) := by
  intro p hp
  have hp1 : p.length = 1 := (mem_topFiles.mp hp).2
  have hne : st0.fs.topFiles.isEmpty = false := by
    cases h : st0.fs.topFiles with
    | nil => rw [h] at hp; simp at hp
    | cons a t => rfl
  obtain ⟨moved, done, hperm, hinv⟩ := action_sort_spec mf st0 hWf hne
  obtain ⟨hF, _, hU, hM, hDstNd, hSrcNd, hO⟩ := hinv
  have hB : (moved.map (fun m => (m.dst, m.content))).find?
      (fun e => e.1 == p) = none := by
    rw [List.find?_eq_none]
    intro x hx
    simp only [List.mem_map] at hx
    obtain ⟨m, hm, rfl⟩ := hx
    have hlen := (hM m hm).2.2.2.1
    simp only [Bool.not_eq_true, beq_eq_false_iff_ne, ne_eq]
    intro hdst
    rw [hdst, hp1] at hlen
    exact absurd hlen (by omega)
  have hsrceq : (action_sort mf st0).undo_data.map (fun r => r.2) =
      srcsOf moved := by
    rw [hU, List.map_map]
    rfl
  have hkeepget : p ∉ srcsOf moved →
      (action_sort mf st0).fs.getFile p = st0.fs.getFile p := by
    intro hpnotsrc
    rw [FS.getFile, FS.getFile, hF, List.find?_append]
    have hA : (st0.fs.files.filter (fun e => !((srcsOf moved).contains e.1))).find?
        (fun e => e.1 == p) = st0.fs.files.find? (fun e => e.1 == p) := by
      apply find?_filter_of_imp
      intro a ha
      rw [beq_iff_eq] at ha
      rw [ha]
      simp only [Bool.not_eq_true']
      cases hc2 : (srcsOf moved).contains p with
      | false => rfl
      | true =>
        exfalso
        exact hpnotsrc (by simpa using hc2)
    rw [hA, hB, Option.or_none]
  refine ⟨?_, ?_, ?_⟩
  · intro hall
    have hpnotsrc : p ∉ srcsOf moved := by
      intro hmem
      simp only [srcsOf, List.mem_map] at hmem
      obtain ⟨m, hm, hms⟩ := hmem
      have hmf := (hM m hm).2.2.2.2.2.1
      rw [hms, hall m.dst] at hmf
      exact absurd hmf (by simp)
    refine ⟨hkeepget hpnotsrc, ?_⟩
    intro r hr
    rw [hU] at hr
    simp only [List.mem_map] at hr
    obtain ⟨m, hm, rfl⟩ := hr
    intro hsrc
    exact hpnotsrc (List.mem_map.mpr ⟨m, hm, hsrc⟩)
  · intro hnp
    rw [hsrceq] at hnp
    exact hkeepget hnp
  · intro hpmem
    rw [hsrceq] at hpmem
    rw [hU]
    have hcnt : ((moved.map (fun m => (m.dst, m.src))).filter
        (fun r => r.2 == p)).length =
        ((srcsOf moved).filter (fun x => x == p)).length := by
      rw [List.filter_map, List.length_map]
      rw [srcsOf, List.filter_map, List.length_map]
      rfl
    rw [hcnt]
    exact filter_beq_length_eq_one hSrcNd hpmem

/-- Witness for C3 with an oracle that fails every move of `b.jpg` and no
other move: `b.jpg` keeps its path and content and gets no undo record,
while `a.pdf` is still processed and recorded exactly once. -/
theorem sort_move_failure_isolated_witness :
    ((action_sort failOnB flatExampleState).fs.getFile ["b.jpg"] =
      flatExampleState.fs.getFile ["b.jpg"] ∧
     ∀ r ∈ (action_sort failOnB flatExampleState).undo_data, r.2 ≠ ["b.jpg"]) ∧
    ((action_sort failOnB flatExampleState).undo_data.filter
      (fun r => r.2 == ["a.pdf"])).length = 1 :=
  ⟨(sort_move_failure_isolated failOnB flatExampleState
      ⟨by decide, by decide, by decide⟩ ["b.jpg"] (by decide)).1
      (fun q => by simp [failOnB]),
   (sort_move_failure_isolated failOnB flatExampleState
      ⟨by decide, by decide, by decide⟩ ["a.pdf"] (by decide)).2.2 (by decide)⟩

/-- C9: the destinations recorded by one sort run are pairwise distinct,
so the undo log maps every destination to exactly one original path. -/
theorem sort_destinations_distinct (mf : Path → Path → Bool) (st0 : AppState)
    (hWf : st0.fs.Wf) (hne : st0.fs.topFiles ≠ []) :
    ((action_sort mf st0).undo_data.map (fun r => r.1)).Nodup := by
  have hne' : st0.fs.topFiles.isEmpty = false := by
    cases h : st0.fs.topFiles with
    | nil => exact absurd h hne
    | cons a t => rfl
  obtain ⟨moved, done, hperm, hinv⟩ := action_sort_spec mf st0 hWf hne'
  obtain ⟨_, _, hU, _, hDstNd, _, _⟩ := hinv
  rw [hU, List.map_map]
  exact hDstNd

/-- Witness for C9 on the concrete four-file directory. -/
theorem sort_destinations_distinct_witness :
    ((action_sort noMoveFailure flatExampleState).undo_data.map
      (fun r => r.1)).Nodup :=
  sort_destinations_distinct noMoveFailure flatExampleState
    ⟨by decide, by decide, by decide⟩ (by decide)

/-- C8: a directory created by sort is the category directory of at least
one enumerated file (lazy creation), and sorting a directory with zero
direct file children only reports a message: the state is otherwise
untouched, so no directory is created and nothing is mutated. -/
theorem lazy_dirs_and_empty_benign (mf : Path → Path → Bool) (st0 : AppState)
    (hWf : st0.fs.Wf) :
    (∀ d, d ∈ (action_sort mf st0).fs.dirs → d ∉ st0.fs.dirs →
      ∃ p ∈ st0.fs.topFiles, d = [get_category (fileName p)]) ∧
    (st0.fs.topFiles = [] →
      action_sort mf st0 =
        { st0 with status := "No files found in the selected directory." }) := by
  constructor
  · intro d hd hnd
    cases hne : st0.fs.topFiles.isEmpty with
    | true =>
      rw [action_sort_eq_empty hne] at hd
      exact absurd hd hnd
    | false =>
      obtain ⟨moved, done, hperm, hinv⟩ := action_sort_spec mf st0 hWf hne
      obtain ⟨_, hDex, _, _, _, _, _⟩ := hinv
      obtain ⟨newDirs, hD, _, hDall⟩ := hDex
      rw [hD, List.mem_append] at hd
      rcases hd with hd | hd
      · exact absurd hd hnd
      · exact (hDall d hd).2
  · intro h0
    exact action_sort_eq_empty (by rw [h0]; rfl)

/-- Witness for C8: sorting a directory whose only entry is a
subdirectory reports and leaves the state untouched. -/
theorem lazy_dirs_and_empty_benign_witness :
    action_sort noMoveFailure emptyDirState =
      { emptyDirState with status := "No files found in the selected directory." } :=
  (lazy_dirs_and_empty_benign noMoveFailure emptyDirState
    ⟨by decide, by decide, by decide⟩).2 rfl

/-! #### Undo lemmas -/

theorem undo_sort_of_empty {mf : Path → Path → Bool} {st : AppState}
    (h : st.undo_data = []) :
    undo_sort mf st = { st with status := "Nothing to undo." } := by
  unfold undo_sort
  rw [if_pos (by simp [h])]

/-- C6: undo consumes the log wholesale: it clears the log even when some
per-file reversals failed (the oracle `mf` is arbitrary), so a second
consecutive undo finds an empty log, reports "Nothing to undo." and does
not mutate the filesystem. -/
theorem undo_clears_log (mf mf2 : Path → Path → Bool) (st : AppState)
    (h : st.undo_data ≠ []) :
    (undo_sort mf st).undo_data = [] ∧
    (undo_sort mf2 (undo_sort mf st)).fs = (undo_sort mf st).fs ∧
    (undo_sort mf2 (undo_sort mf st)).status = "Nothing to undo." := by
  have h1 : (undo_sort mf st).undo_data = [] := by
    unfold undo_sort
    rw [if_neg (by simpa using h)]
  exact ⟨h1, by rw [undo_sort_of_empty h1], by rw [undo_sort_of_empty h1]⟩

/-- Witness for C6 on the log produced by sorting the four-file
directory. -/
theorem undo_clears_log_witness :
    (undo_sort noMoveFailure (action_sort noMoveFailure flatExampleState)).undo_data = [] ∧
    (undo_sort noMoveFailure (undo_sort noMoveFailure
        (action_sort noMoveFailure flatExampleState))).fs =
      (undo_sort noMoveFailure (action_sort noMoveFailure flatExampleState)).fs ∧
    (undo_sort noMoveFailure (undo_sort noMoveFailure
        (action_sort noMoveFailure flatExampleState))).status = "Nothing to undo." :=
  undo_clears_log noMoveFailure noMoveFailure
    (action_sort noMoveFailure flatExampleState) (by decide)

theorem undoStep_touched (mf : Path → Path → Bool) (acc : FS × List Path)
    (r : Path × Path) :
    (undoStep mf acc r).2 = acc.2 ∨
      (undoStep mf acc r).2 = acc.2 ++ [parentDir r.1] := by
  simp only [undoStep]
  by_cases h1 : acc.1.pathExists r.1 = true
  · rw [if_pos h1]
    by_cases h3 : mf r.1 r.2 = true
    · rw [if_pos h3]
      by_cases h2 : acc.2.contains (parentDir r.1) = true
      · rw [if_pos h2]
        left
        rfl
      · rw [if_neg h2]
        right
        rfl
    · rw [if_neg h3]
      cases hm : acc.1.shutilMove r.1 r.2 with
      | none =>
        by_cases h2 : acc.2.contains (parentDir r.1) = true
        · rw [if_pos h2]; left; rfl
        · rw [if_neg h2]; right; rfl
      | some fs' =>
        by_cases h2 : acc.2.contains (parentDir r.1) = true
        · rw [if_pos h2]; left; rfl
        · rw [if_neg h2]; right; rfl
  · rw [if_neg h1]
    left
    rfl

theorem undoMoves_touched_len (mf : Path → Path → Bool) :
    ∀ (records : List (Path × Path)) (acc : FS × List Path),
      (∀ r ∈ records, r.1.length = 2) →
      (∀ t ∈ acc.2, t.length = 1) →
      ∀ t ∈ (records.foldl (undoStep mf) acc).2, t.length = 1 := by
  intro records
  induction records with
  | nil => intro acc _ hacc t ht; exact hacc t ht
  | cons r rest ih =>
    intro acc hrec hacc t ht
    refine ih (undoStep mf acc r) (fun x hx => hrec x (by simp [hx])) ?_ t ht
    intro x hx
    rcases undoStep_touched mf acc r with he | he
    · rw [he] at hx
      exact hacc x hx
    · rw [he] at hx
      rcases List.mem_append.mp hx with hx | hx
      · exact hacc x hx
      · have hxp : x = parentDir r.1 := by simpa using hx
        rw [hxp, parentDir, List.length_dropLast, hrec r (by simp)]

theorem removeDirStep_dirs (acc : FS × Nat) (d : Path) :
    (removeDirStep acc d).1.files = acc.1.files ∧
    ((removeDirStep acc d).1.dirs = acc.1.dirs ∨
      ((removeDirStep acc d).1.dirs = acc.1.dirs.filter (fun x => x != d) ∧
        acc.1.hasChild d = false)) := by
  unfold removeDirStep
  by_cases h1 : acc.1.pathExists d = true
  · rw [if_pos h1]
    by_cases h2 : acc.1.fileExists d = true
    · rw [if_pos h2]
      exact ⟨rfl, Or.inl rfl⟩
    · rw [if_neg h2]
      by_cases h3 : acc.1.hasChild d = true
      · rw [if_pos h3]
        exact ⟨rfl, Or.inl rfl⟩
      · rw [if_neg h3]
        refine ⟨rfl, Or.inr ⟨rfl, ?_⟩⟩
        cases hc : acc.1.hasChild d with
        | false => rfl
        | true => exact absurd hc h3
  · rw [if_neg h1]
    exact ⟨rfl, Or.inl rfl⟩

theorem removeDirs_fold_spec :
    ∀ (touched : List Path) (acc : FS × Nat),
      (∀ t ∈ touched, t.length = 1) →
      (touched.foldl removeDirStep acc).1.files = acc.1.files ∧
      ∀ d ∈ acc.1.dirs, d ∉ (touched.foldl removeDirStep acc).1.dirs →
        d ∈ touched ∧ acc.1.hasChild d = false := by
  intro touched
  induction touched with
  | nil =>
    intro acc _
    exact ⟨rfl, fun d hd hnd => absurd hd hnd⟩
  | cons t rest ih =>
    intro acc hlen
    obtain ⟨hfiles, hrest⟩ := ih (removeDirStep acc t)
      (fun x hx => hlen x (by simp [hx]))
    obtain ⟨hf1, hd1⟩ := removeDirStep_dirs acc t
    constructor
    · rw [List.foldl_cons, hfiles, hf1]
    · intro d hd hnd
      by_cases hdin : d ∈ (removeDirStep acc t).1.dirs
      · obtain ⟨hmem, hchild⟩ := hrest d hdin (by simpa using hnd)
        refine ⟨by simp [hmem], ?_⟩
        rcases hd1 with he | ⟨he, _⟩
        · have hhc : (removeDirStep acc t).1.hasChild d = acc.1.hasChild d := by
            rw [FS.hasChild, FS.hasChild, FS.allPaths, FS.allPaths, hf1, he]
          rw [hhc] at hchild
          exact hchild
        · have hdlen : d.length = 1 := hlen d (by simp [hmem])
          cases hc : acc.1.hasChild d with
          | false => rfl
          | true =>
            exfalso
            rw [FS.hasChild, List.any_eq_true] at hc
            obtain ⟨p, hp, hcond⟩ := hc
            have hcond2 : d.isPrefixOf p = true ∧ (p != d) = true := by
              rw [← Bool.and_eq_true]
              exact hcond
            have hpre : d <+: p := List.isPrefixOf_iff_prefix.mp hcond2.1
            have hpd : p ≠ d := by simpa using hcond2.2
            have hplen : 2 ≤ p.length := by
              have hle := hpre.length_le
              rcases Nat.lt_or_ge d.length p.length with hlt | hge
              · omega
              · exfalso
                exact hpd (hpre.eq_of_length (by omega)).symm
            have hchild2 : (removeDirStep acc t).1.hasChild d = true := by
              rw [FS.hasChild, List.any_eq_true]
              refine ⟨p, ?_, hcond⟩
              rw [FS.allPaths] at hp ⊢
              rw [hf1, he]
              rcases List.mem_append.mp hp with hp | hp
              · exact List.mem_append_left _ hp
              · refine List.mem_append_right _ ?_
                rw [List.mem_filter]
                refine ⟨hp, ?_⟩
                have htlen : t.length = 1 := hlen t (by simp)
                simp only [bne_iff_ne, ne_eq]
                intro hpt
                rw [hpt, htlen] at hplen
                omega
            rw [hchild2] at hchild
            exact absurd hchild (by simp)
      · rcases hd1 with he | ⟨he, hemp⟩
        · rw [he] at hdin
          exact absurd hd hdin
        · rw [he] at hdin
          have hdt : d = t := by
            by_contra hne
            apply hdin
            rw [List.mem_filter]
            exact ⟨hd, by simp [hne]⟩
          rw [hdt]
          exact ⟨by simp, hdt ▸ hemp⟩

/-- C7: for a sort-shaped undo log (every destination two path components
deep), the cleanup phase of undo only ever removes directories that this
undo touched (parents of destinations that still existed when their
reversal was attempted) and that are empty at removal time (equivalently,
empty right after the reversal phase, since only sibling category
directories are removed); a non-empty directory is never removed, and a
directory not touched by this undo is never removed. -/
theorem undo_removes_only_touched_empty (mf : Path → Path → Bool)
    (st : AppState)
    (hshape : ∀ r ∈ st.undo_data, r.1.length = 2) :
    ∀ d ∈ (st.undo_data.foldl (undoStep mf) (st.fs, [])).1.dirs,
      d ∉ (undo_sort mf st).fs.dirs →
      d ∈ (st.undo_data.foldl (undoStep mf) (st.fs, [])).2 ∧
      (st.undo_data.foldl (undoStep mf) (st.fs, [])).1.hasChild d = false := by
  intro d hd hnd
  by_cases hemp : st.undo_data.isEmpty = true
  · exfalso
    have he : st.undo_data = [] := by simpa using hemp
    rw [undo_sort_of_empty he] at hnd
    rw [he] at hd
    apply hnd
    rw [he]
    exact hd
  · have hstep : (undo_sort mf st).fs =
        ((st.undo_data.foldl (undoStep mf) (st.fs, [])).2.foldl removeDirStep
          ((st.undo_data.foldl (undoStep mf) (st.fs, [])).1, 0)).1 := by
      simp only [undo_sort]
      rw [if_neg (by simpa using hemp)]
    rw [hstep] at hnd
    have hT := undoMoves_touched_len mf st.undo_data (st.fs, []) hshape (by simp)
    exact (removeDirs_fold_spec _ _ hT).2 d hd hnd

/-- Witness for C7 on the log produced by sorting the four-file
directory. -/
theorem undo_removes_only_touched_empty_witness :
    (∀ r ∈ (action_sort noMoveFailure flatExampleState).undo_data,
      r.1.length = 2) ∧
    ∀ d ∈ (((action_sort noMoveFailure flatExampleState).undo_data).foldl
        (undoStep noMoveFailure)
        ((action_sort noMoveFailure flatExampleState).fs, [])).1.dirs,
      d ∉ (undo_sort noMoveFailure (action_sort noMoveFailure flatExampleState)).fs.dirs →
      d ∈ (((action_sort noMoveFailure flatExampleState).undo_data).foldl
        (undoStep noMoveFailure)
        ((action_sort noMoveFailure flatExampleState).fs, [])).2 ∧
      (((action_sort noMoveFailure flatExampleState).undo_data).foldl
        (undoStep noMoveFailure)
        ((action_sort noMoveFailure flatExampleState).fs, [])).1.hasChild d = false :=
  ⟨by decide, undo_removes_only_touched_empty noMoveFailure
    (action_sort noMoveFailure flatExampleState) (by decide)⟩

theorem nodup_keys_eq_of_mem :
    ∀ {l : List (Path × String)}, ((l.map (fun e => e.1)).Nodup) →
      ∀ {e1 e2 : Path × String}, e1 ∈ l → e2 ∈ l → e1.1 = e2.1 → e1 = e2 := by
  intro l
  induction l with
  | nil => intro _ e1 e2 h1; simp at h1
  | cons a t ih =>
    intro hnd e1 e2 h1 h2 hk
    rw [List.map_cons] at hnd
    have hnd2 := List.nodup_cons.mp hnd
    rcases List.mem_cons.mp h1 with h1 | h1 <;>
      rcases List.mem_cons.mp h2 with h2 | h2
    · rw [h1, h2]
    · exact absurd (List.mem_map.mpr ⟨e2, h2, by rw [← hk, h1]⟩) hnd2.1
    · exact absurd (List.mem_map.mpr ⟨e1, h1, by rw [hk, h2]⟩) hnd2.1
    · exact ih hnd2.2 h1 h2 hk

theorem undoMoves_restore :
    ∀ (rest pre : List MoveEv) (D T : List Path),
      (rest.map (fun m => m.src) ++ pre.map (fun m => m.src)).Nodup →
      (rest.map (fun m => m.dst)).Nodup →
      (∀ m ∈ rest, m.src.length = 1 ∧ m.dst.length = 2 ∧ m.src ∉ D) →
      (∀ m ∈ pre, m.src.length = 1) →
      ∃ T2,
        (rest.map (fun m => (m.dst, m.src))).foldl (undoStep noMoveFailure)
            (⟨rest.map (fun m => (m.dst, m.content)) ++
              pre.map (fun m => (m.src, m.content)), D⟩, T) =
          (⟨(pre ++ rest).map (fun m => (m.src, m.content)), D⟩, T2) ∧
        (∀ x, x ∈ T2 ↔ (x ∈ T ∨ ∃ m ∈ rest, x = parentDir m.dst)) := by
  intro rest
  induction rest with
  | nil =>
    intro pre D T _ _ _ _
    refine ⟨T, by simp, ?_⟩
    intro x
    simp
  | cons r rest' ih =>
    intro pre D T hsrcnd hdstnd hmoves hpre
    have hr := hmoves r (by simp)
    have hsrcnd2 : (r.src :: (rest'.map (fun m => m.src) ++
        pre.map (fun m => m.src))).Nodup := by
      simpa using hsrcnd
    have hdstnd2 : (r.dst :: rest'.map (fun m => m.dst)).Nodup := by
      simpa using hdstnd
    set fs0 : FS := ⟨(r :: rest').map (fun m => (m.dst, m.content)) ++
      pre.map (fun m => (m.src, m.content)), D⟩ with hfsdef
    have hfe : fs0.fileExists r.dst = true := by
      rw [FS.fileExists, List.any_eq_true]
      refine ⟨(r.dst, r.content), ?_, by simp⟩
      rw [hfsdef]
      simp
    have hpe : fs0.pathExists r.dst = true := by
      rw [FS.pathExists, hfe]
      rfl
    have hsrcfe : fs0.fileExists r.src = false := by
      cases hv : fs0.fileExists r.src with
      | false => rfl
      | true =>
        exfalso
        rw [FS.fileExists, List.any_eq_true] at hv
        obtain ⟨e, he, hekey⟩ := hv
        rw [beq_iff_eq] at hekey
        rw [hfsdef] at he
        rcases List.mem_append.mp he with hA | hB
        · obtain ⟨m, hm, hme⟩ := List.mem_map.mp hA
          have hml := (hmoves m hm).2.1
          rw [← hme] at hekey
          simp only at hekey
          rw [hekey, hr.1] at hml
          exact absurd hml (by omega)
        · obtain ⟨m, hm, hme⟩ := List.mem_map.mp hB
          have hmem : r.src ∈ rest'.map (fun m => m.src) ++
              pre.map (fun m => m.src) := by
            apply List.mem_append_right
            rw [List.mem_map]
            refine ⟨m, hm, ?_⟩
            rw [← hekey, ← hme]
          exact (List.nodup_cons.mp hsrcnd2).1 hmem
    have hsrcde : fs0.dirExists r.src = false := by
      cases hv : fs0.dirExists r.src with
      | false => rfl
      | true =>
        exfalso
        rw [FS.dirExists] at hv
        exact hr.2.2 (by simpa [hfsdef] using hv)
    have hsrcpe : fs0.pathExists r.src = false := by
      rw [FS.pathExists, hsrcfe, hsrcde]
      rfl
    have hget : fs0.getFile r.dst = some r.content := by
      rw [FS.getFile]
      have hfind : fs0.files.find? (fun e => e.1 == r.dst) =
          some (r.dst, r.content) := by
        rw [hfsdef]
        simp only [List.map_cons, List.cons_append]
        rw [List.find?_cons_of_pos _ (by simp)]
      rw [hfind]
      rfl
    have hkeep1 : (rest'.map (fun m => (m.dst, m.content))).filter
        (fun e => e.1 != r.dst) = rest'.map (fun m => (m.dst, m.content)) := by
      apply List.filter_eq_self.mpr
      intro a ha
      obtain ⟨m, hm, hme⟩ := List.mem_map.mp ha
      simp only [bne_iff_ne, ne_eq, decide_eq_true_eq]
      intro hkey
      apply (List.nodup_cons.mp hdstnd2).1
      rw [List.mem_map]
      refine ⟨m, hm, ?_⟩
      rw [← hkey, ← hme]
    have hkeep2 : (pre.map (fun m => (m.src, m.content))).filter
        (fun e => e.1 != r.dst) = pre.map (fun m => (m.src, m.content)) := by
      apply List.filter_eq_self.mpr
      intro a ha
      obtain ⟨m, hm, hme⟩ := List.mem_map.mp ha
      have hml := hpre m hm
      simp only [bne_iff_ne, ne_eq, decide_eq_true_eq]
      intro hkey
      rw [← hme] at hkey
      simp only at hkey
      rw [hkey] at hml
      rw [hr.2.1] at hml
      exact absurd hml (by omega)
    have hfilter : fs0.files.filter (fun e => e.1 != r.dst) =
        rest'.map (fun m => (m.dst, m.content)) ++
          pre.map (fun m => (m.src, m.content)) := by
      rw [hfsdef]
      simp only [List.map_cons, List.cons_append, List.filter_cons]
      rw [if_neg (by simp)]
      rw [List.filter_append, hkeep1, hkeep2]
    have hmv := shutilMove_success hsrcde hsrcpe
      (Or.inl (by
        obtain ⟨a, ha⟩ := List.length_eq_one.mp hr.1
        rw [ha]
        rfl)) hget
    have hstep : undoStep noMoveFailure (fs0, T) (r.dst, r.src) =
        (⟨rest'.map (fun m => (m.dst, m.content)) ++
          (pre ++ [r]).map (fun m => (m.src, m.content)), D⟩,
         if T.contains (parentDir r.dst) then T else T ++ [parentDir r.dst]) := by
      simp only [undoStep]
      rw [if_pos hpe]
      rw [if_neg (by simp [noMoveFailure])]
      rw [hmv]
      have hdirs0 : fs0.dirs = D := by rw [hfsdef]
      rw [hfilter, hdirs0]
      simp only [List.map_append, List.map_cons, List.map_nil, List.append_assoc]
    obtain ⟨T2, hfold, hT2⟩ := ih (pre ++ [r]) D
      (if T.contains (parentDir r.dst) then T else T ++ [parentDir r.dst])
      (by
        have hperm : (r.src :: (rest'.map (fun m => m.src) ++
            pre.map (fun m => m.src))).Perm
            (rest'.map (fun m => m.src) ++
              (pre.map (fun m => m.src) ++ [r.src])) := by
          have h1 := @List.perm_append_comm _ [r.src]
            (rest'.map (fun m => m.src) ++ pre.map (fun m => m.src))
          have h2 : (rest'.map (fun m => m.src) ++ pre.map (fun m => m.src)) ++
              [r.src] = rest'.map (fun m => m.src) ++
                (pre.map (fun m => m.src) ++ [r.src]) := by
            rw [List.append_assoc]
          rw [h2] at h1
          simpa using h1
        have := hperm.nodup hsrcnd2
        simpa using this)
      (List.nodup_cons.mp hdstnd2).2
      (fun m hm => hmoves m (by simp [hm]))
      (fun m hm => by
        rcases List.mem_append.mp hm with hm | hm
        · exact hpre m hm
        · have hmr : m = r := by simpa using hm
          rw [hmr]
          exact hr.1)
    refine ⟨T2, ?_, ?_⟩
    · simp only [List.map_cons, List.foldl_cons]
      rw [hstep, hfold]
      have hpp : (pre ++ [r]) ++ rest' = pre ++ (r :: rest') := by
        rw [List.append_assoc]
        rfl
      rw [hpp]
    · intro x
      rw [hT2 x]
      by_cases hc : T.contains (parentDir r.dst) = true
      · rw [if_pos hc]
        constructor
        · intro h
          rcases h with h | ⟨m, hm, he⟩
          · exact Or.inl h
          · exact Or.inr ⟨m, by simp [hm], he⟩
        · intro h
          rcases h with h | ⟨m, hm, he⟩
          · exact Or.inl h
          · rcases List.mem_cons.mp hm with hm | hm
            · left
              rw [he, hm]
              simpa using hc
            · exact Or.inr ⟨m, hm, he⟩
      · rw [if_neg hc]
        constructor
        · intro h
          rcases h with h | ⟨m, hm, he⟩
          · rcases List.mem_append.mp h with h | h
            · exact Or.inl h
            · have : x = parentDir r.dst := by simpa using h
              exact Or.inr ⟨r, by simp, this⟩
          · exact Or.inr ⟨m, by simp [hm], he⟩
        · intro h
          rcases h with h | ⟨m, hm, he⟩
          · exact Or.inl (List.mem_append_left _ h)
          · rcases List.mem_cons.mp hm with hm | hm
            · left
              apply List.mem_append_right
              rw [he, hm]
              simp
            · exact Or.inr ⟨m, hm, he⟩

theorem removeDirs_fold_flat :
    ∀ (touched : List Path) (files : List (Path × String)) (Dcur : List Path)
      (n : Nat),
      (∀ d ∈ Dcur, d.length = 1) →
      (∀ d ∈ Dcur, ∀ e ∈ files, e.1 ≠ d) →
      (∀ e ∈ files, e.1.length = 1) →
      (touched.foldl removeDirStep (⟨files, Dcur⟩, n)).1.files = files ∧
      (touched.foldl removeDirStep (⟨files, Dcur⟩, n)).1.dirs =
        Dcur.filter (fun d => !(touched.contains d)) := by
  intro touched
  induction touched with
  | nil =>
    intro files Dcur n _ _ _
    refine ⟨rfl, ?_⟩
    rw [List.filter_eq_self.mpr (fun a _ => by simp)]
    rfl
  | cons t rest ih =>
    intro files Dcur n hD1 hDf hf1
    have hcontains : ∀ d ∈ Dcur,
        ((t :: rest).contains d) = ((d == t) || rest.contains d) := by
      intro d _
      rw [Bool.eq_iff_iff]
      simp
    cases hfe : FS.fileExists ⟨files, Dcur⟩ t with
    | true =>
      -- `t` is a regular file: `iterdir` raises and nothing is removed
      have htD : t ∉ Dcur := by
        rw [FS.fileExists, List.any_eq_true] at hfe
        obtain ⟨e, he, hekey⟩ := hfe
        rw [beq_iff_eq] at hekey
        intro hmem
        exact hDf t hmem e he hekey
      have hstep : removeDirStep (⟨files, Dcur⟩, n) t = (⟨files, Dcur⟩, n) := by
        unfold removeDirStep
        by_cases hpe : FS.pathExists ⟨files, Dcur⟩ t = true
        · rw [if_pos hpe, if_pos hfe]
        · rw [if_neg hpe]
      rw [List.foldl_cons, hstep]
      obtain ⟨hfiles, hdirs⟩ := ih files Dcur n hD1 hDf hf1
      refine ⟨hfiles, ?_⟩
      rw [hdirs]
      apply List.filter_congr
      intro d hd
      rw [hcontains d hd]
      have hdt : (d == t) = false := by
        cases hv : (d == t) with
        | false => rfl
        | true =>
          exfalso
          exact htD (by rw [← beq_iff_eq.mp hv]; exact hd)
      rw [hdt]
      simp
    | false =>
      cases hde : FS.dirExists ⟨files, Dcur⟩ t with
      | false =>
        have htD : t ∉ Dcur := by
          rw [FS.dirExists] at hde
          intro hmem
          rw [show (List.contains Dcur t) = true by simpa using hmem] at hde
          exact absurd hde (by simp)
        have hstep : removeDirStep (⟨files, Dcur⟩, n) t = (⟨files, Dcur⟩, n) := by
          unfold removeDirStep
          rw [if_neg (by rw [FS.pathExists, hfe, hde]; simp)]
        rw [List.foldl_cons, hstep]
        obtain ⟨hfiles, hdirs⟩ := ih files Dcur n hD1 hDf hf1
        refine ⟨hfiles, ?_⟩
        rw [hdirs]
        apply List.filter_congr
        intro d hd
        rw [hcontains d hd]
        have hdt : (d == t) = false := by
          cases hv : (d == t) with
          | false => rfl
          | true =>
            exfalso
            exact htD (by rw [← beq_iff_eq.mp hv]; exact hd)
        rw [hdt]
        simp
      | true =>
        -- `t` is an existing, empty directory: removed
        have htD : t ∈ Dcur := by
          rw [FS.dirExists] at hde
          simpa using hde
        have hnc : FS.hasChild ⟨files, Dcur⟩ t = false := by
          cases hv : FS.hasChild ⟨files, Dcur⟩ t with
          | false => rfl
          | true =>
            exfalso
            rw [FS.hasChild, List.any_eq_true] at hv
            obtain ⟨p, hp, hcond⟩ := hv
            have hcond2 : t.isPrefixOf p = true ∧ (p != t) = true := by
              rw [← Bool.and_eq_true]
              exact hcond
            have hpre : t <+: p := List.isPrefixOf_iff_prefix.mp hcond2.1
            have hpt : p ≠ t := by simpa using hcond2.2
            have htlen : t.length = 1 := hD1 t htD
            have hplen : 2 ≤ p.length := by
              have hle := hpre.length_le
              rcases Nat.lt_or_ge t.length p.length with hlt | hge
              · omega
              · exact absurd (hpre.eq_of_length (by omega)).symm hpt
            rw [FS.allPaths, List.mem_append] at hp
            rcases hp with hp | hp
            · obtain ⟨e, he, hekey⟩ := List.mem_map.mp hp
              have := hf1 e he
              rw [hekey] at this
              omega
            · have := hD1 p hp
              omega
        have hstep : removeDirStep (⟨files, Dcur⟩, n) t =
            (⟨files, Dcur.filter (fun x => x != t)⟩, n + 1) := by
          unfold removeDirStep
          rw [if_pos (by rw [FS.pathExists, hfe, hde]; rfl), if_neg (by simp [hfe]),
            if_neg (by simp [hnc])]
        rw [List.foldl_cons, hstep]
        obtain ⟨hfiles, hdirs⟩ := ih files (Dcur.filter (fun x => x != t)) (n + 1)
          (fun d hd => hD1 d (List.mem_filter.mp hd).1)
          (fun d hd => hDf d (List.mem_filter.mp hd).1) hf1
        refine ⟨hfiles, ?_⟩
        rw [hdirs, List.filter_filter]
        apply List.filter_congr
        intro d hd
        rw [hcontains d hd]
        cases hv : (d == t) with
        | true =>
          rw [Bool.true_or]
          simp only [Bool.not_true]
          rw [show (d != t) = false by simp [beq_iff_eq.mp hv]]
          rw [Bool.and_false]
        | false =>
          rw [Bool.false_or]
          rw [show (d != t) = true by simp [bne]; simpa using hv]
          rw [Bool.and_true]

/-- C4: `get_category` is a pure, deterministic function of the file name:
it returns `"Others"` when no table entry holds the lowercased final
suffix; it returns the first entry (in table order) holding the lowercased
final suffix otherwise; and an extension owned by exactly one entry
classifies every name formed of a nonempty stem followed by that
extension, in any letter case, into that entry's category. -/
theorem get_category_spec :
    (∀ name : String,
      (∀ e ∈ CATEGORIES, strLower (pySuffix name) ∉ e.2) →
      get_category name = "Others") ∧
    (∀ (name : String) (pre suf : List (String × List String))
        (entry : String × List String),
      CATEGORIES = pre ++ entry :: suf →
      strLower (pySuffix name) ∈ entry.2 →
      (∀ e ∈ pre, strLower (pySuffix name) ∉ e.2) →
      get_category name = entry.1) ∧
    (∀ entry ∈ CATEGORIES, ∀ ext ∈ entry.2,
      (∀ entry2 ∈ CATEGORIES, ext ∈ entry2.2 → entry2.1 = entry.1) →
      ∀ s e : String, s ≠ "" → strLower e = ext →
      get_category (s ++ e) = entry.1) := by
  refine ⟨?_, ?_, ?_⟩
  · intro name h
    simp only [get_category]
    have hf : CATEGORIES.find?
        (fun e => e.2.contains (strLower (pySuffix name))) = none := by
      rw [List.find?_eq_none]
      intro x hx
      simpa using h x hx
    rw [hf]
  · intro name pre suf entry hsplit hmem hpre
    simp only [get_category]
    have hnone : pre.find?
        (fun e => e.2.contains (strLower (pySuffix name))) = none := by
      rw [List.find?_eq_none]
      intro x hx
      simpa using hpre x hx
    have hpos : (entry :: suf).find?
        (fun e => e.2.contains (strLower (pySuffix name))) = some entry :=
      List.find?_cons_of_pos suf (by simpa using hmem)
    rw [hsplit, List.find?_append, hnone, hpos]
    rfl
  · intro entry hentry ext hext huniq s e hs hlow
    obtain ⟨rest, hed, hrne, hrnd⟩ :=
      extShapeOk_spec (table_ext_shape entry hentry ext hext)
    have hmap : e.data.map Char.toLower = '.' :: rest := by
      have hc := congrArg String.data hlow
      rw [strLower_data] at hc
      rw [hc, hed]
    obtain ⟨c0, restC, hc0e, hc0, hrestC⟩ :
        ∃ c0 restC, e.data = c0 :: restC ∧ Char.toLower c0 = '.' ∧
          restC.map Char.toLower = rest := by
      cases hdE : e.data with
      | nil => rw [hdE] at hmap; simp at hmap
      | cons c0 restC =>
        rw [hdE] at hmap
        simp only [List.map_cons, List.cons.injEq] at hmap
        exact ⟨c0, restC, rfl, hmap.1, hmap.2⟩
    have hc0dot : c0 = '.' := toLower_eq_dot hc0
    have hrestCne : restC ≠ [] := by
      intro h0
      rw [h0] at hrestC
      simp only [List.map_nil] at hrestC
      exact hrne hrestC.symm
    have hrestCnd : '.' ∉ restC := by
      intro hm
      apply hrnd
      rw [← hrestC]
      exact List.mem_map.mpr ⟨'.', hm, by decide⟩
    have hps : pySuffix (s ++ e) = e :=
      pySuffix_append (string_data_ne_nil hs) (by rw [hc0e, hc0dot]) hrestCne hrestCnd
    simp only [get_category]
    rw [hps, hlow]
    cases hfind : CATEGORIES.find? (fun en => en.2.contains ext) with
    | none =>
      exfalso
      rw [List.find?_eq_none] at hfind
      have hx := hfind entry hentry
      simp only [Bool.not_eq_true] at hx
      have hcx : entry.2.contains ext = true := by simpa using hext
      rw [hcx] at hx
      exact absurd hx (by decide)
    | some a =>
      have hpa := List.find?_some hfind
      have hma : a ∈ CATEGORIES := List.mem_of_find?_eq_some hfind
      exact huniq a hma (by simpa using hpa)

/-- Witness for C4: concrete classifications produced by the three parts
of `get_category_spec`. -/
theorem get_category_spec_witness :
    get_category "d.xyz" = "Others" ∧
    get_category "a.pdf" = "Documents" ∧
    get_category ("x" ++ ".DocX") = "Documents" :=
  ⟨get_category_spec.1 "d.xyz" (by decide),
   get_category_spec.2.1 "a.pdf" [] CATEGORIES.tail
     (CATEGORIES.headD ("", [])) (by rfl) (by decide) (by decide),
   get_category_spec.2.2 (CATEGORIES.headD ("", [])) (by decide)
     ".docx" (by decide) (by decide) "x" ".DocX" (by decide) (by decide)⟩

/-- C10 counterexample: the literal `".gitignore"` table entry IS matched
by classification: a name with a nonempty stem ending in `.gitignore` has
final suffix `.gitignore` and is classified `Code` through that entry, so
whole-dotfile-name entries are not unmatchable. -/
theorem dotfile_entry_matched_cex :
    pySuffix "x.gitignore" = ".gitignore" ∧
    (∃ entry ∈ CATEGORIES, entry.1 = "Code" ∧ ".gitignore" ∈ entry.2) ∧
    get_category "x.gitignore" = "Code" := by
  refine ⟨by decide, by decide, by decide⟩

/-- C10 (amended): a file name consisting of a single leading dot and no
other dot has empty final suffix and is classified `"Others"`, even though
the literal string `".gitignore"` appears in the Code category's extension
table; the dotfile names themselves never match those entries (but a name
with a nonempty stem ending in such an entry does match it). -/
theorem dotfile_classified_others :
    (∀ (name : String) (rest : List Char),
      name.data = '.' :: rest → '.' ∉ rest →
      pySuffix name = "" ∧ get_category name = "Others") ∧
    (∃ entry ∈ CATEGORIES, entry.1 = "Code" ∧ ".gitignore" ∈ entry.2) := by
  constructor
  · intro name rest he hnd
    have hsfx : pySuffix name = "" := pySuffix_dotfile he hnd
    refine ⟨hsfx, ?_⟩
    simp only [get_category, hsfx]
    have hf : CATEGORIES.find? (fun e => e.2.contains (strLower "")) = none := by
      rw [List.find?_eq_none]
      decide
    rw [hf]
  · decide

/-- Witness for C10's amended statement: `.gitignore` itself is classified
`Others` although it appears verbatim in the Code entry. -/
theorem dotfile_classified_others_witness :
    pySuffix ".gitignore" = "" ∧ get_category ".gitignore" = "Others" :=
  dotfile_classified_others.1 ".gitignore"
    ['g', 'i', 't', 'i', 'g', 'n', 'o', 'r', 'e'] (by decide) (by decide)

/-- C5: the conflict loop returns a destination that does not exist on the
filesystem at call time; concretely, with `report.pdf` already present in
the Documents folder, a second colliding file is sorted to `report_1.pdf`
and a third to `report_2.pdf`. -/
theorem resolve_conflict_spec :
    (∀ (fs : FS) (dir : Path) (name : String),
      fs.pathExists (resolveConflict fs dir name) = false) ∧
    (action_sort noMoveFailure conflictExampleState).undo_data =
      [(["Documents", "report_1.pdf"], ["report.pdf"])] ∧
    (action_sort noMoveFailure conflictExampleState2).undo_data =
      [(["Documents", "report_2.pdf"], ["report.pdf"])] :=
  ⟨resolveConflict_not_exists, by decide, by decide⟩

theorem getFile_mem {fs : FS} {p : Path} {c : String}
    (h : fs.getFile p = some c) : (p, c) ∈ fs.files := by
  rw [FS.getFile] at h
  cases hfind : fs.files.find? (fun e => e.1 == p) with
  | none => rw [hfind] at h; simp at h
  | some e =>
    rw [hfind] at h
    have h2 : e.2 = c := by simpa using h
    have hmem := List.mem_of_find?_eq_some hfind
    have hkey := List.find?_some hfind
    rw [beq_iff_eq] at hkey
    have he : e = (p, c) := by
      rcases e with ⟨a, b⟩
      simp only at hkey h2
      rw [hkey, h2]
    rw [← he]
    exact hmem

/-- C1 (amended): on a well-formed, non-empty flat directory of files with
pairwise distinct names, none of which is named like the category computed
for any file in the directory, sorting and then undoing (with no
interleaved mutation and no host failure) restores the original files (as
a set of path-content pairs), removes every category directory the sort
created, and leaves the undo log empty. -/
theorem sort_undo_roundtrip (st0 : AppState)
    (hWf : st0.fs.Wf) (hdirs : st0.fs.dirs = [])
    (hflat : ∀ e ∈ st0.fs.files, e.1.length = 1)
    (hne : st0.fs.files ≠ [])
    (hnocat : ∀ e ∈ st0.fs.files, ∀ e2 ∈ st0.fs.files,
      fileName e.1 ≠ get_category (fileName e2.1)) :
    (undo_sort noMoveFailure (action_sort noMoveFailure st0)).fs.files.Perm
        st0.fs.files ∧
    (undo_sort noMoveFailure (action_sort noMoveFailure st0)).fs.dirs = [] ∧
    (undo_sort noMoveFailure (action_sort noMoveFailure st0)).undo_data = [] := by
  have htop : st0.fs.topFiles = st0.fs.files.map (fun e => e.1) := by
    rw [FS.topFiles]
    apply List.filter_eq_self.mpr
    intro p hp
    obtain ⟨e, he, hek⟩ := List.mem_map.mp hp
    rw [← hek]
    simpa using hflat e he
  have hine : st0.fs.topFiles.isEmpty = false := by
    rw [htop]
    cases hf : st0.fs.files with
    | nil => exact absurd hf hne
    | cons a t => simp
  obtain ⟨moved, done, hperm, hinv⟩ := action_sort_spec noMoveFailure st0 hWf hine
  obtain ⟨h1, ⟨newDirs, hd1, hd2, hd3⟩, h3, h4, h5, h6, h7⟩ := hinv
  have hkeynd : (st0.fs.files.map (fun e => e.1)).Nodup := hWf.1
  have htopnd : st0.fs.topFiles.Nodup := by rw [htop]; exact hkeynd
  have hdonend : done.Nodup := (hperm.nodup_iff).mpr htopnd
  have hsrcperm : (srcsOf moved).Perm done := by
    rw [List.perm_ext_iff_of_nodup h6 hdonend]
    intro p
    constructor
    · intro hp
      obtain ⟨m, hm, hms⟩ := List.mem_map.mp hp
      rw [← hms]
      exact (h4 m hm).1
    · intro hp
      refine h7 p hp (fun q => rfl) ?_
      intro q hq
      have hpt : p ∈ st0.fs.topFiles := hperm.mem_iff.mp hp
      rw [htop] at hpt hq
      obtain ⟨e2, he2, he2k⟩ := List.mem_map.mp hpt
      obtain ⟨e, he, hek⟩ := List.mem_map.mp hq
      rw [← hek, ← he2k]
      exact hnocat e he e2 he2
  have hsrcstop : (srcsOf moved).Perm (st0.fs.files.map (fun e => e.1)) := by
    rw [htop] at hperm
    exact hsrcperm.trans hperm
  have hmemsrc : ∀ p, p ∈ srcsOf moved ↔ p ∈ st0.fs.files.map (fun e => e.1) :=
    fun p => hsrcstop.mem_iff
  have hfilter0 : st0.fs.files.filter
      (fun e => !((srcsOf moved).contains e.1)) = [] := by
    rw [List.filter_eq_nil_iff]
    intro e he
    have hmem : e.1 ∈ srcsOf moved :=
      (hmemsrc e.1).mpr (List.mem_map.mpr ⟨e, he, rfl⟩)
    simp
    exact hmem
  have hfiles1 : (action_sort noMoveFailure st0).fs.files =
      moved.map (fun m => (m.dst, m.content)) := by
    rw [h1, hfilter0]
    rfl
  have hdirs1 : (action_sort noMoveFailure st0).fs.dirs = newDirs := by
    rw [hd1, hdirs]
    rfl
  have hsrclen : ∀ m ∈ moved, m.src.length = 1 := by
    intro m hm
    exact (mem_topFiles.mp (h4 m hm).2.1).2
  have hsrcnotdir : ∀ m ∈ moved, ∀ d ∈ newDirs, m.src ≠ d := by
    intro m hm d hd heq
    obtain ⟨hdl, p, hp, hdp⟩ := hd3 d hd
    obtain ⟨hpm, hpl⟩ := mem_topFiles.mp hp
    obtain ⟨e2, he2, he2k⟩ := List.mem_map.mp hpm
    have hsm : m.src ∈ st0.fs.files.map (fun e => e.1) :=
      (hmemsrc m.src).mp (List.mem_map.mpr ⟨m, hm, rfl⟩)
    obtain ⟨e, he, hek⟩ := List.mem_map.mp hsm
    apply hnocat e he e2 he2
    rw [hek, heq, hdp, ← he2k]
    rfl
  have hmovedne : moved ≠ [] := by
    intro hnil
    rw [hnil] at hsrcstop
    have hk : st0.fs.files.map (fun e => e.1) = [] := by
      have := hsrcstop.symm
      simpa [srcsOf] using this.eq_nil
    rw [List.map_eq_nil_iff] at hk
    exact hne hk
  have hudne : ((action_sort noMoveFailure st0).undo_data).isEmpty = false := by
    rw [h3]
    cases hm : moved with
    | nil => exact absurd hm hmovedne
    | cons a t => simp
  have hfs1 : (action_sort noMoveFailure st0).fs =
      (⟨moved.map (fun m => (m.dst, m.content)), newDirs⟩ : FS) := by
    have h1x := hfiles1
    have h2x := hdirs1
    cases hfe : (action_sort noMoveFailure st0).fs with
    | mk A B =>
      rw [hfe] at h1x h2x
      rw [FS.mk.injEq]
      exact ⟨h1x, h2x⟩
  obtain ⟨T2, hfold, hT2⟩ := undoMoves_restore moved [] newDirs []
    (by simpa [srcsOf] using h6)
    (by simpa [dstsOf] using h5)
    (fun m hm => ⟨hsrclen m hm, (h4 m hm).2.2.2.1,
      fun hmem => hsrcnotdir m hm m.src hmem rfl⟩)
    (fun m hm => absurd hm (List.not_mem_nil m))
  rw [List.map_nil, List.append_nil, List.nil_append] at hfold
  have hmid : (action_sort noMoveFailure st0).undo_data.foldl
      (undoStep noMoveFailure) ((action_sort noMoveFailure st0).fs, []) =
      (⟨moved.map (fun m => (m.src, m.content)), newDirs⟩, T2) := by
    rw [h3, hfs1]
    exact hfold
  have hufs : (undo_sort noMoveFailure (action_sort noMoveFailure st0)).fs =
      (T2.foldl removeDirStep
        (⟨moved.map (fun m => (m.src, m.content)), newDirs⟩, 0)).1 := by
    have hstep : (undo_sort noMoveFailure (action_sort noMoveFailure st0)).fs =
        (((action_sort noMoveFailure st0).undo_data.foldl
            (undoStep noMoveFailure)
            ((action_sort noMoveFailure st0).fs, [])).2.foldl removeDirStep
          (((action_sort noMoveFailure st0).undo_data.foldl
            (undoStep noMoveFailure)
            ((action_sort noMoveFailure st0).fs, [])).1, 0)).1 := by
      simp only [undo_sort]
      rw [if_neg (by simp [hudne])]
    rw [hstep, hmid]
  have huud : (undo_sort noMoveFailure (action_sort noMoveFailure st0)).undo_data
      = [] := by
    simp only [undo_sort]
    rw [if_neg (by simp [hudne])]
  have hclean := removeDirs_fold_flat T2
    (moved.map (fun m => (m.src, m.content))) newDirs 0
    (fun d hd => (hd3 d hd).1)
    (by
      intro d hd e he heq
      obtain ⟨m, hm, hme⟩ := List.mem_map.mp he
      apply hsrcnotdir m hm d hd
      rw [← hme] at heq
      exact heq)
    (by
      intro e he
      obtain ⟨m, hm, hme⟩ := List.mem_map.mp he
      rw [← hme]
      exact hsrclen m hm)
  have hdirsnil : newDirs.filter (fun d => !(T2.contains d)) = [] := by
    rw [List.filter_eq_nil_iff]
    intro d hd
    obtain ⟨hdl, p, hp, hdp⟩ := hd3 d hd
    have hps : p ∈ srcsOf moved := by
      apply (hmemsrc p).mpr
      rw [← htop]
      exact hp
    obtain ⟨m, hm, hms⟩ := List.mem_map.mp hps
    have hdT2 : d ∈ T2 := by
      apply (hT2 d).mpr
      refine Or.inr ⟨m, hm, ?_⟩
      rw [(h4 m hm).2.2.2.2.2.2.1]
      rw [hms]
      exact hdp
    simp
    exact hdT2
  refine ⟨?_, ?_, huud⟩
  · rw [hufs, hclean.1]
    have hmapnd : (moved.map (fun m => (m.src, m.content))).Nodup := by
      apply List.Nodup.of_map (fun e => e.1)
      rw [List.map_map]
      exact h6
    have hfnd : st0.fs.files.Nodup := List.Nodup.of_map _ hkeynd
    rw [List.perm_ext_iff_of_nodup hmapnd hfnd]
    intro e
    constructor
    · intro he
      obtain ⟨m, hm, hme⟩ := List.mem_map.mp he
      rw [← hme]
      exact getFile_mem (h4 m hm).2.2.1
    · intro he
      have hmem : e.1 ∈ srcsOf moved :=
        (hmemsrc e.1).mpr (List.mem_map.mpr ⟨e, he, rfl⟩)
      obtain ⟨m, hm, hms⟩ := List.mem_map.mp hmem
      have hmf : (m.src, m.content) ∈ st0.fs.files :=
        getFile_mem (h4 m hm).2.2.1
      have hee : e = (m.src, m.content) := by
        apply nodup_keys_eq_of_mem hkeynd he hmf
        rw [hms]
      rw [hee]
      exact List.mem_map.mpr ⟨m, hm, rfl⟩
  · rw [hufs, hclean.2, hdirsnil]

/-- Witness for C1 (amended) on the four-file example directory. -/
theorem sort_undo_roundtrip_witness :
    (undo_sort noMoveFailure (action_sort noMoveFailure flatExampleState)).fs.files.Perm
        flatExampleState.fs.files ∧
    (undo_sort noMoveFailure (action_sort noMoveFailure flatExampleState)).fs.dirs = [] ∧
    (undo_sort noMoveFailure (action_sort noMoveFailure flatExampleState)).undo_data = [] :=
  sort_undo_roundtrip flatExampleState ⟨by decide, by decide, by decide⟩
    (by decide) (by decide) (by decide) (by decide)

/-- C1 counterexample: a flat non-empty directory of files with distinct
names (one literally named `Documents`) in which sort followed by undo
does not restore the file at its original path and leaves the created
`Documents` directory behind. -/
theorem sort_undo_roundtrip_cex :
    categoryCollisionState.fs.dirs = [] ∧
    (∀ e ∈ categoryCollisionState.fs.files, e.1.length = 1) ∧
    categoryCollisionState.fs.files ≠ [] ∧
    (categoryCollisionState.fs.files.map (fun e => e.1)).Nodup ∧
    (undo_sort noMoveFailure (action_sort noMoveFailure
        categoryCollisionState)).fs.getFile ["Documents"] = none ∧
    (undo_sort noMoveFailure (action_sort noMoveFailure
        categoryCollisionState)).fs.dirs = [["Documents"]] :=
  ⟨by decide, by decide, by decide, by decide, by decide, by decide⟩

end FileSorter
